import Mathlib

/-!
A verification development for a distributed sparse matrix–vector
multiplication program (`main.cpp`).  The pure computational core of the
program is embedded shallowly:

* C++ `double` values are modelled as exact rationals (`ℚ`);
* C++ `int` row/column indices are modelled as `Int`;
* container sizes and array positions are modelled as `Nat`;
* operations that can hit an out-of-bounds `std::vector` access (undefined
  behaviour in C++) or construct a negative-sized vector are modelled as
  `Option`-valued functions returning `none` in exactly those situations;
* `std::sort` with the strict-weak-order comparator
  `a.row < b.row || (a.row == b.row && a.column < b.column)` is modelled by a
  comparison sort producing a permutation ordered by the induced total
  preorder `entryLE`.  The model uses insertion sort (which evaluates by
  `decide`); a determinism lemma (`mergeRuns_eq_of_perm_of_sorted`) shows the
  constructions are insensitive to the order of tied entries, so any
  `std::sort` implementation yields the same CSR matrix.
-/

namespace SpMV

/-- `struct CoordinateEntry`: one coordinate-format entry of a sparse matrix. -/
structure CoordinateEntry where
  row : Int
  column : Int
  value : ℚ
deriving DecidableEq, Repr

/-- `struct CompressedSparseRowMatrix`: CSR storage.  `rowPointers` holds
non-negative counts/offsets (C++ `int`s that the program only ever increments
from zero), so it is modelled with `Nat` entries. -/
structure CompressedSparseRowMatrix where
  numberOfRows : Nat
  numberOfColumns : Nat
  rowPointers : List Nat
  columnIndices : List Int
  values : List ℚ
deriving DecidableEq, Repr

/-- The total preorder induced by the C++ comparator
`a.row < b.row || (a.row == b.row && a.column < b.column)`:
`entryLE a b` holds iff `¬ comparator b a`, the order in which `std::sort`
leaves consecutive elements. -/
def entryLE (a b : CoordinateEntry) : Prop :=
  a.row < b.row ∨ (a.row = b.row ∧ a.column ≤ b.column)

instance : DecidableRel entryLE := fun a b =>
  inferInstanceAs (Decidable (_ ∨ _))

instance : IsTotal CoordinateEntry entryLE :=
  ⟨fun a b => by unfold entryLE; omega⟩

instance : IsTrans CoordinateEntry entryLE :=
  ⟨fun a b c hab hbc => by unfold entryLE at *; omega⟩

/-- The sort performed at the start of both conversion routines
(`sort(coordinateEntries.begin(), coordinateEntries.end(), …)`). -/
def sortEntries (l : List CoordinateEntry) : List CoordinateEntry :=
  List.insertionSort entryLE l

/-- The merging scan of `convertCOOtoCSR` with a run in progress: the current
run has key `(r, c)` and accumulated value `acc` (the loop registers
`currentRow`, `currentColumn`, `accumulatedValue`); consecutive entries with
the same `(row, column)` are summed, and each maximal run is emitted as one
`(row, column, value)` triple. -/
def mergeRunsAux (r c : Int) (acc : ℚ) :
    List CoordinateEntry → List (Int × Int × ℚ)
  | [] => [(r, c, acc)]
  | e :: rest =>
    if e.row = r ∧ e.column = c then
      mergeRunsAux r c (acc + e.value) rest
    else
      (r, c, acc) :: mergeRunsAux e.row e.column e.value rest

/-- The full merging scan of `convertCOOtoCSR` (lines 230–253): duplicate
`(row, column)` runs of the (sorted) entry list are combined by summation. -/
def mergeRuns : List CoordinateEntry → List (Int × Int × ℚ)
  | [] => []
  | e :: rest => mergeRunsAux e.row e.column e.value rest

/-- `rowPointers[idx]++` on a vector of length `counts.length`: an
out-of-range index is an out-of-bounds `std::vector` write (undefined
behaviour), modelled as failure. -/
def bumpCount (counts : List Nat) (idx : Int) : Option (List Nat) :=
  if 0 ≤ idx ∧ idx < (counts.length : Int) then
    some (counts.set idx.toNat (counts.getD idx.toNat 0 + 1))
  else
    none

/-- Folds the per-run `rowPointers[row + 1]++` increments over the merged
runs. -/
def buildCounts (counts : List Nat) :
    List (Int × Int × ℚ) → Option (List Nat)
  | [] => some counts
  | t :: rest =>
    match bumpCount counts (t.1 + 1) with
    | none => none
    | some counts2 => buildCounts counts2 rest

/-- The prefix-sum loop `rowPointers[i] += rowPointers[i - 1]` (`acc` is the
running total of all elements already passed). -/
def accumulatePointers (acc : Nat) : List Nat → List Nat
  | [] => []
  | x :: rest => (acc + x) :: accumulatePointers (acc + x) rest

/-- Assembles a CSR matrix from the merged runs: per-row counts, prefix-sum
row pointers, and the parallel column/value arrays pushed during the scan. -/
def buildFromRuns (numberOfRows numberOfColumns : Nat)
    (runs : List (Int × Int × ℚ)) : Option CompressedSparseRowMatrix :=
  match buildCounts (List.replicate (numberOfRows + 1) 0) runs with
  | none => none
  | some counts =>
    some { numberOfRows := numberOfRows
           numberOfColumns := numberOfColumns
           rowPointers := accumulatePointers 0 counts
           columnIndices := runs.map (fun t => t.2.1)
           values := runs.map (fun t => t.2.2) }

/-- `SparseMatrixConverter::convertCOOtoCSR` (lines 204–265): empty input
yields all-zero row pointers; otherwise the entries are sorted by
`(row, column)`, consecutive duplicates are merged by summation, and the CSR
arrays are assembled.  `none` models the undefined behaviour of the
out-of-bounds write `rowPointers[currentRow + 1]++` when some entry's row
lies outside `[-1, numberOfRows)`. -/
def convertCOOtoCSR (numberOfRows numberOfColumns : Nat)
    (coordinateEntries : List CoordinateEntry) :
    Option CompressedSparseRowMatrix :=
  if coordinateEntries.isEmpty then
    some { numberOfRows := numberOfRows
           numberOfColumns := numberOfColumns
           rowPointers := List.replicate (numberOfRows + 1) 0
           columnIndices := []
           values := [] }
  else
    buildFromRuns numberOfRows numberOfColumns
      (mergeRuns (sortEntries coordinateEntries))

/-- The merging scan of `convertCOOtoCSRLocal` (lines 298–324), expressed as
a single pass whose first argument is the loop state: `none` means no run is
in progress (the outer loop is about to classify the next entry), and
`some (r, c, acc)` means a run with key `(r, c)` and accumulated value `acc`
is open.  Entries whose local row `row - localRowStart` falls outside
`[0, localNumberOfRows)` are skipped; emitted triples carry the local row
`r - localRowStart`. -/
def localScan (localRowStart : Int) (localNumberOfRows : Nat) :
    Option (Int × Int × ℚ) → List CoordinateEntry → List (Int × Int × ℚ)
  | none, [] => []
  | some (r, c, acc), [] => [(r - localRowStart, c, acc)]
  | none, e :: rest =>
    if 0 ≤ e.row - localRowStart ∧
        e.row - localRowStart < (localNumberOfRows : Int) then
      localScan localRowStart localNumberOfRows
        (some (e.row, e.column, e.value)) rest
    else
      localScan localRowStart localNumberOfRows none rest
  | some (r, c, acc), e :: rest =>
    if e.row = r ∧ e.column = c then
      localScan localRowStart localNumberOfRows (some (r, c, acc + e.value)) rest
    else
      (r - localRowStart, c, acc) ::
        (if 0 ≤ e.row - localRowStart ∧
            e.row - localRowStart < (localNumberOfRows : Int) then
          localScan localRowStart localNumberOfRows
            (some (e.row, e.column, e.value)) rest
        else
          localScan localRowStart localNumberOfRows none rest)

/-- The windowed merging scan started with no run in progress. -/
def localMergeRuns (localRowStart : Int) (localNumberOfRows : Nat)
    (l : List CoordinateEntry) : List (Int × Int × ℚ) :=
  localScan localRowStart localNumberOfRows none l

/-- `SparseMatrixConverter::convertCOOtoCSRLocal` (lines 270–335): the same
algorithm restricted to the half-open row window
`[localRowStart, localRowEnd)`; out-of-window entries are skipped and kept
entries use local row `row - localRowStart`.  A window with
`localRowEnd < localRowStart` makes the C++ construct a negative-sized
vector, modelled as failure. -/
def convertCOOtoCSRLocal (globalNumberOfRows globalNumberOfColumns : Nat)
    (localCoordinateEntries : List CoordinateEntry)
    (localRowStart localRowEnd : Int) : Option CompressedSparseRowMatrix :=
  if localRowEnd < localRowStart then
    none
  else
    let localNumberOfRows := (localRowEnd - localRowStart).toNat
    if localCoordinateEntries.isEmpty then
      some { numberOfRows := localNumberOfRows
             numberOfColumns := globalNumberOfColumns
             rowPointers := List.replicate (localNumberOfRows + 1) 0
             columnIndices := []
             values := [] }
    else
      buildFromRuns localNumberOfRows globalNumberOfColumns
        (localMergeRuns localRowStart localNumberOfRows
          (sortEntries localCoordinateEntries))

/-- The row-window restriction described by the spec: keep exactly the
entries with `rowStart ≤ row < rowEnd` and replace each kept row by
`row - rowStart`. -/
def windowedShift (rowStart rowEnd : Int) (l : List CoordinateEntry) :
    List CoordinateEntry :=
  l.filterMap (fun e =>
    if rowStart ≤ e.row ∧ e.row < rowEnd then
      some ⟨e.row - rowStart, e.column, e.value⟩
    else
      none)

/-- Both converters receive their coordinate list by reference and sort it in
place (lines 219–223 and 288–292) before scanning; on empty input they return
before sorting.  This function models the contents of the caller's vector
after either call. -/
def entriesAfterConvert (l : List CoordinateEntry) : List CoordinateEntry :=
  if l.isEmpty then l else sortEntries l

/-- The inner loop of `multiply` (lines 378–386): starting from array
position `k`, fold the next `count` contributions into the accumulator
`acc`; a contribution `values[k] * globalVector[columnIndices[k]]` is added
only when `0 ≤ columnIndices[k] < globalVector.size()`, and an out-of-range
position `k` itself (an out-of-bounds read of `columnIndices`/`values`) is
modelled as failure. -/
def dotFrom (columnIndices : List Int) (values : List ℚ)
    (globalVector : List ℚ) (acc : ℚ) : Nat → Nat → Option ℚ
  | _, 0 => some acc
  | k, count + 1 =>
    match columnIndices[k]?, values[k]? with
    | some c, some v =>
      dotFrom columnIndices values globalVector
        (acc + if 0 ≤ c ∧ c < (globalVector.length : Int) then
            v * globalVector.getD c.toNat 0
          else 0)
        (k + 1) count
    | _, _ => none

/-- The outer loop of `multiply`: rows `r, r + 1, …, r + count - 1`, each
computing its dot product over the range
`[rowPointers[r], rowPointers[r + 1])`. -/
def multiplyRows (m : CompressedSparseRowMatrix) (x : List ℚ) :
    Nat → Nat → Option (List ℚ)
  | _, 0 => some []
  | r, count + 1 =>
    match m.rowPointers[r]?, m.rowPointers[r + 1]? with
    | some lo, some hi =>
      match dotFrom m.columnIndices m.values x 0 lo (hi - lo),
          multiplyRows m x (r + 1) count with
      | some d, some rest => some (d :: rest)
      | _, _ => none
    | _, _ => none

/-- `DistributedSparseMatrixVectorMultiplier::multiply` (lines 364–392):
the local CSR matrix times the dense vector. -/
def multiply (localMatrix : CompressedSparseRowMatrix)
    (globalVector : List ℚ) : Option (List ℚ) :=
  multiplyRows localMatrix globalVector 0 localMatrix.numberOfRows

/-- `DistributedSparseMatrixVectorMultiplier::calculateRowDistribution`
(lines 397–410): `mpiSize + 1` boundaries, the first `mpiSize` by the closed
form `k * base + min k remainder` and the last fixed to the total row
count. -/
def calculateRowDistribution (totalNumberOfRows mpiSize : Nat) : List Int :=
  let baseRowsPerProcess := totalNumberOfRows / mpiSize
  let remainingRows := totalNumberOfRows % mpiSize
  (List.range mpiSize).map
      (fun processRank =>
        ((processRank * baseRowsPerProcess + min processRank remainingRows
            : Nat) : Int))
    ++ [(totalNumberOfRows : Int)]

/-- `std::upper_bound(first, last, x) - first` on a sorted range: the index
of the first element greater than `x`, i.e. the length of the maximal prefix
of elements `≤ x`. -/
def upperBoundIndex (l : List Int) (x : Int) : Nat :=
  (l.takeWhile (fun b => decide (b ≤ x))).length

/-- `DistributedSparseMatrixVectorMultiplier::findOwnerProcess`
(lines 482–489): binary search of the row against the distribution
boundaries, minus one, clamped to `[0, mpiSize - 1]`. -/
def findOwnerProcess (mpiSize : Nat) (rowIndex : Int)
    (rowDistribution : List Int) : Int :=
  max 0 (min ((upperBoundIndex rowDistribution rowIndex : Int) - 1)
    ((mpiSize : Int) - 1))

/-- The root-side classification loop of
`DistributedSparseMatrixVectorMultiplier::distributeMatrixRows`
(lines 425–430): every entry is appended to the bucket of its owner
process. -/
def distributeToBuckets (mpiSize : Nat) (rowDistribution : List Int)
    (allEntries : List CoordinateEntry) : List (List CoordinateEntry) :=
  allEntries.foldl
    (fun buckets e =>
      let owner := (findOwnerProcess mpiSize e.row rowDistribution).toNat
      buckets.set owner (buckets.getD owner [] ++ [e]))
    (List.replicate mpiSize [])

/-- One MPI point-to-point message as used by the distribution phase: a
scalar `MPI_INT` count, an `MPI_INT` array, or an `MPI_DOUBLE` array, each
with its tag. -/
inductive MpiMessage where
  | intScalar (tag : Nat) (value : Int)
  | intArray (tag : Nat) (data : List Int)
  | realArray (tag : Nat) (data : List ℚ)
deriving DecidableEq, Repr

/-- `DistributedSparseMatrixVectorMultiplier::sendCoordinateEntries`
(lines 494–518): the sequence of messages sent to one destination — the
entry count with tag 0, then, only if the count is positive, the rows
(tag 1), columns (tag 2) and values (tag 3) arrays. -/
def sendCoordinateEntries (entries : List CoordinateEntry) :
    List MpiMessage :=
  MpiMessage.intScalar 0 (entries.length : Int) ::
    (if 0 < entries.length then
      [MpiMessage.intArray 1 (entries.map (fun e => e.row)),
       MpiMessage.intArray 2 (entries.map (fun e => e.column)),
       MpiMessage.realArray 3 (entries.map (fun e => e.value))]
    else [])

/-- Zips the three received parallel arrays back into coordinate entries
(lines 541–544). -/
def zipEntries (rows columns : List Int) (values : List ℚ) :
    List CoordinateEntry :=
  (rows.zip (columns.zip values)).map (fun t => ⟨t.1, t.2.1, t.2.2⟩)

/-- `DistributedSparseMatrixVectorMultiplier::receiveCoordinateEntries`
(lines 523–548), as a consumer of the incoming message stream: it blocks on
a tag-0 scalar count, and only if the count is positive blocks on the three
data arrays with tags 1, 2, 3 in that order.  Receiving a message of an
unexpected kind, tag, or length is modelled as failure.  Returns the
reconstructed entries and the unconsumed remainder of the stream. -/
def receiveCoordinateEntries :
    List MpiMessage → Option (List CoordinateEntry × List MpiMessage)
  | MpiMessage.intScalar 0 n :: rest =>
    if 0 < n then
      match rest with
      | MpiMessage.intArray 1 rows :: MpiMessage.intArray 2 columns ::
          MpiMessage.realArray 3 values :: rest2 =>
        if (rows.length : Int) = n ∧ (columns.length : Int) = n ∧
            (values.length : Int) = n then
          some (zipEntries rows columns values, rest2)
        else none
      | _ => none
    else some ([], rest)
  | _ => none

/-- The output document produced by `MatrixMarketWriter::writeVector`
(lines 563–596), with the numeric content kept structured: the header line,
the reported dimension line, and one `(row, column, value)` data line per
retained entry.  (Decimal rendering of the values is outside the model.) -/
structure MatrixMarketDocument where
  header : String
  reportedRows : Nat
  reportedColumns : Nat
  reportedNonZeros : Nat
  dataLines : List (Nat × Nat × ℚ)
deriving DecidableEq, Repr

/-- The collection loop of `writeVector` (lines 572–576): indices `i` with
`fabs(vectorData[i]) > zeroTolerance` are kept, paired with their values;
`i` is the zero-based index of the head of the remaining list. -/
def collectNonZeroEntries (zeroTolerance : ℚ) :
    Nat → List ℚ → List (Nat × ℚ)
  | _, [] => []
  | i, x :: rest =>
    if zeroTolerance < |x| then
      (i, x) :: collectNonZeroEntries zeroTolerance (i + 1) rest
    else
      collectNonZeroEntries zeroTolerance (i + 1) rest

/-- `MatrixMarketWriter::writeVector`: the fixed coordinate header, a
dimension line `⟨length, 1, nnz⟩`, and one 1-based data line per retained
entry with the column fixed to 1. -/
def writeVector (vectorData : List ℚ) (zeroTolerance : ℚ) :
    MatrixMarketDocument :=
  let nonZeroEntries := collectNonZeroEntries zeroTolerance 0 vectorData
  { header := "%%MatrixMarket matrix coordinate real general"
    reportedRows := vectorData.length
    reportedColumns := 1
    reportedNonZeros := nonZeroEntries.length
    dataLines := nonZeroEntries.map (fun t => (t.1 + 1, 1, t.2)) }

/-! ### Derived notions used to state the claims -/

/-- The `(column, value)` pairs stored for row `r`: positions
`[rowPointers[r], rowPointers[r + 1])` of the parallel arrays. -/
def rowSegment (m : CompressedSparseRowMatrix) (r : Nat) :
    List (Int × ℚ) :=
  ((m.columnIndices.zip m.values).drop (m.rowPointers.getD r 0)).take
    (m.rowPointers.getD (r + 1) 0 - m.rowPointers.getD r 0)

/-- The value a row segment contributes as a dot product with `x`: entries
whose column lies outside `[0, x.length)` contribute nothing. -/
def segmentDot (x : List ℚ) (seg : List (Int × ℚ)) : ℚ :=
  (seg.map (fun cv =>
    if 0 ≤ cv.1 ∧ cv.1 < (x.length : Int) then
      cv.2 * x.getD cv.1.toNat 0
    else 0)).sum

/-- Densification of a CSR matrix: cell `(r, c)` is the sum of the stored
values in row `r`'s segment whose column index is `c`. -/
def denseOfCSR (m : CompressedSparseRowMatrix) (r : Nat) (c : Int) : ℚ :=
  (((rowSegment m r).filter (fun cv => decide (cv.1 = c))).map
    (fun cv => cv.2)).sum

/-- The reference dense matrix of a coordinate list: cell `(r, c)` is the
sum of the values of all entries with row `r` and column `c`. -/
def cooCellSum (entries : List CoordinateEntry) (r c : Int) : ℚ :=
  ((entries.filter (fun e => decide (e.row = r ∧ e.column = c))).map
    (fun e => e.value)).sum

/-- The total value carried by runs with key `(r, c)`. -/
def runsCellSum (runs : List (Int × Int × ℚ)) (r c : Int) : ℚ :=
  ((runs.filter (fun t => decide (t.1 = r ∧ t.2.1 = c))).map
    (fun t => t.2.2)).sum

/-- The CSR invariants of the data model: `rowPointers` has length
`numberOfRows + 1`, starts at 0, is monotone non-decreasing, ends at the
common length of the column/value arrays, and each row's segment has
pairwise-distinct column indices. -/
def CSRInvariants (m : CompressedSparseRowMatrix) : Prop :=
  m.rowPointers.length = m.numberOfRows + 1 ∧
  m.rowPointers.getD 0 0 = 0 ∧
  List.Chain' (· ≤ ·) m.rowPointers ∧
  m.rowPointers.getD m.numberOfRows 0 = m.columnIndices.length ∧
  m.columnIndices.length = m.values.length ∧
  ∀ r, r < m.numberOfRows →
    ((rowSegment m r).map (fun cv => cv.1)).Nodup

/-- Each row segment of the matrix stores only columns that genuinely occur
in the source entry list at that row: segment `r` draws exclusively on
entries whose (global) row is `rowOffset + r`. -/
def segmentsFromRows (m : CompressedSparseRowMatrix)
    (entries : List CoordinateEntry) (rowOffset : Int) : Prop :=
  ∀ r, r < m.numberOfRows → ∀ cv ∈ rowSegment m r,
    ∃ e ∈ entries, e.row = rowOffset + (r : Int) ∧ e.column = cv.1

/-! ### Auxiliary order relations and helper functions for the proofs -/

/-- `(r, c)` is at most the key of entry `e` in the lexicographic order. -/
def keyLE (r c : Int) (e : CoordinateEntry) : Prop :=
  r < e.row ∨ (r = e.row ∧ c ≤ e.column)

/-- Strict lexicographic order on merged runs by `(row, column)` key. -/
def runLT (t u : Int × Int × ℚ) : Prop :=
  t.1 < u.1 ∨ (t.1 = u.1 ∧ t.2.1 < u.2.1)

/-- `(r, c)` is at most the key of run `t` in the lexicographic order. -/
def runKeyLE (r c : Int) (t : Int × Int × ℚ) : Prop :=
  r < t.1 ∨ (r = t.1 ∧ c ≤ t.2.1)

/-- The `(row, column)` key of a merged run. -/
def keyOf (t : Int × Int × ℚ) : Int × Int := (t.1, t.2.1)

/-- Strict lexicographic order on keys. -/
def pairLT (a b : Int × Int) : Prop :=
  a.1 < b.1 ∨ (a.1 = b.1 ∧ a.2 < b.2)

instance : IsAntisymm (Int × Int) pairLT :=
  ⟨fun a b hab hba => by unfold pairLT at *; omega⟩

instance : IsTrans (Int × Int) pairLT :=
  ⟨fun a b c hab hbc => by unfold pairLT at *; omega⟩

/-- Whether an entry's row lies in the local window. -/
def windowB (localRowStart : Int) (localNumberOfRows : Nat)
    (e : CoordinateEntry) : Bool :=
  decide (0 ≤ e.row - localRowStart ∧
    e.row - localRowStart < (localNumberOfRows : Int))

/-- Shifts an entry's row to its local index. -/
def shiftEntry (localRowStart : Int) (e : CoordinateEntry) :
    CoordinateEntry :=
  ⟨e.row - localRowStart, e.column, e.value⟩

/-- Keep an in-window entry with its row shifted; drop the rest. -/
def shiftFun (localRowStart : Int) (localNumberOfRows : Nat)
    (e : CoordinateEntry) : Option CoordinateEntry :=
  if 0 ≤ e.row - localRowStart ∧
      e.row - localRowStart < (localNumberOfRows : Int) then
    some (shiftEntry localRowStart e)
  else
    none

/-! ### Sorting lemmas -/

theorem sortEntries_perm (l : List CoordinateEntry) : (sortEntries l).Perm l :=
  List.perm_insertionSort entryLE l

theorem sortEntries_sorted (l : List CoordinateEntry) :
    (sortEntries l).Pairwise entryLE :=
  List.sorted_insertionSort entryLE l

/-! ### Structure of the merging scan -/

theorem mergeRunsAux_ne_nil (r c : Int) (acc : ℚ) (l : List CoordinateEntry) :
    mergeRunsAux r c acc l ≠ [] := by
  induction l generalizing r c acc with
  | nil => simp [mergeRunsAux]
  | cons e rest ih =>
    rw [mergeRunsAux]
    split
    · exact ih _ _ _
    · simp

theorem mergeRunsAux_sorted (l : List CoordinateEntry) :
    ∀ r c acc, l.Pairwise entryLE → (∀ e ∈ l, keyLE r c e) →
      (mergeRunsAux r c acc l).Pairwise runLT ∧
        ∀ t ∈ mergeRunsAux r c acc l, runKeyLE r c t := by
  induction l with
  | nil =>
    intro r c acc _ _
    refine ⟨List.pairwise_singleton _ _, ?_⟩
    intro t ht
    simp only [mergeRunsAux, List.mem_singleton] at ht
    subst ht
    simp [runKeyLE]
  | cons e rest ih =>
    intro r c acc hsort hctx
    rw [mergeRunsAux]
    have hsort' := List.pairwise_cons.mp hsort
    split
    · rename_i hkey
      refine ih r c (acc + e.value) hsort'.2 ?_
      intro e' he'
      have h1 := hsort'.1 e' he'
      have h2 := hctx e (List.mem_cons_self e rest)
      unfold entryLE at h1
      unfold keyLE at h2 ⊢
      omega
    · rename_i hkey
      have hctx' : ∀ e' ∈ rest, keyLE e.row e.column e' := by
        intro e' he'
        have := hsort'.1 e' he'
        unfold entryLE at this
        unfold keyLE
        omega
      obtain ⟨hp, hall⟩ := ih e.row e.column e.value hsort'.2 hctx'
      have hlt : ∀ t ∈ mergeRunsAux e.row e.column e.value rest,
          runLT (r, c, acc) t := by
        intro t ht
        have h1 := hall t ht
        have h2 := hctx e (List.mem_cons_self e rest)
        unfold runKeyLE at h1
        unfold keyLE at h2
        unfold runLT
        simp only at h1 ⊢
        omega
      refine ⟨List.pairwise_cons.mpr ⟨hlt, hp⟩, ?_⟩
      intro t ht
      rcases List.mem_cons.mp ht with h | h
      · subst h
        simp [runKeyLE]
      · have h1 := hall t h
        have h2 := hctx e (List.mem_cons_self e rest)
        unfold runKeyLE at h1 ⊢
        unfold keyLE at h2
        omega

theorem mergeRuns_sorted {l : List CoordinateEntry}
    (h : l.Pairwise entryLE) : (mergeRuns l).Pairwise runLT := by
  cases l with
  | nil => simp [mergeRuns]
  | cons e rest =>
    rw [mergeRuns]
    refine (mergeRunsAux_sorted rest e.row e.column e.value
      (List.pairwise_cons.mp h).2 ?_).1
    intro e' he'
    have := (List.pairwise_cons.mp h).1 e' he'
    unfold entryLE at this
    unfold keyLE
    omega

theorem mergeRunsAux_keys_sub (l : List CoordinateEntry) :
    ∀ r c acc t, t ∈ mergeRunsAux r c acc l →
      (t.1 = r ∧ t.2.1 = c) ∨ ∃ e ∈ l, t.1 = e.row ∧ t.2.1 = e.column := by
  induction l with
  | nil =>
    intro r c acc t ht
    simp only [mergeRunsAux, List.mem_singleton] at ht
    subst ht
    exact Or.inl ⟨rfl, rfl⟩
  | cons e rest ih =>
    intro r c acc t ht
    rw [mergeRunsAux] at ht
    split at ht
    · rcases ih r c (acc + e.value) t ht with h | ⟨e', he', h⟩
      · exact Or.inl h
      · exact Or.inr ⟨e', List.mem_cons_of_mem e he', h⟩
    · rcases List.mem_cons.mp ht with h | h
      · subst h
        exact Or.inl ⟨rfl, rfl⟩
      · rcases ih e.row e.column e.value t h with h' | ⟨e', he', h'⟩
        · exact Or.inr ⟨e, List.mem_cons_self e rest, h'⟩
        · exact Or.inr ⟨e', List.mem_cons_of_mem e he', h'⟩

theorem mergeRunsAux_keys_self (l : List CoordinateEntry) :
    ∀ r c acc, ∃ t ∈ mergeRunsAux r c acc l, t.1 = r ∧ t.2.1 = c := by
  induction l with
  | nil =>
    intro r c acc
    exact ⟨(r, c, acc), by simp [mergeRunsAux]⟩
  | cons e rest ih =>
    intro r c acc
    rw [mergeRunsAux]
    split
    · exact ih r c (acc + e.value)
    · exact ⟨(r, c, acc), List.mem_cons_self _ _, rfl, rfl⟩

theorem mergeRunsAux_keys_sup (l : List CoordinateEntry) :
    ∀ r c acc e, e ∈ l →
      ∃ t ∈ mergeRunsAux r c acc l, t.1 = e.row ∧ t.2.1 = e.column := by
  induction l with
  | nil => intro r c acc e he; cases he
  | cons e0 rest ih =>
    intro r c acc e he
    rw [mergeRunsAux]
    split
    · rename_i hkey
      rcases List.mem_cons.mp he with h | h
      · subst h
        obtain ⟨t, ht, h1, h2⟩ := mergeRunsAux_keys_self rest r c (acc + e.value)
        exact ⟨t, ht, by rw [h1, hkey.1], by rw [h2, hkey.2]⟩
      · exact ih r c (acc + e0.value) e h
    · rcases List.mem_cons.mp he with h | h
      · subst h
        obtain ⟨t, ht, h1, h2⟩ := mergeRunsAux_keys_self rest e.row e.column e.value
        exact ⟨t, List.mem_cons_of_mem _ ht, h1, h2⟩
      · obtain ⟨t, ht, h1, h2⟩ := ih e0.row e0.column e0.value e h
        exact ⟨t, List.mem_cons_of_mem _ ht, h1, h2⟩

theorem mergeRuns_keys_sub {l : List CoordinateEntry}
    {t : Int × Int × ℚ} (ht : t ∈ mergeRuns l) :
    ∃ e ∈ l, t.1 = e.row ∧ t.2.1 = e.column := by
  cases l with
  | nil => cases ht
  | cons e rest =>
    rw [mergeRuns] at ht
    rcases mergeRunsAux_keys_sub rest e.row e.column e.value t ht with h | h
    · exact ⟨e, List.mem_cons_self e rest, h⟩
    · obtain ⟨e', he', h'⟩ := h
      exact ⟨e', List.mem_cons_of_mem e he', h'⟩

theorem mergeRuns_keys_sup {l : List CoordinateEntry} {e : CoordinateEntry}
    (he : e ∈ l) : ∃ t ∈ mergeRuns l, t.1 = e.row ∧ t.2.1 = e.column := by
  cases l with
  | nil => cases he
  | cons e0 rest =>
    rw [mergeRuns]
    rcases List.mem_cons.mp he with h | h
    · subst h
      obtain ⟨t, ht, h1, h2⟩ := mergeRunsAux_keys_self rest e.row e.column e.value
      exact ⟨t, ht, h1, h2⟩
    · exact mergeRunsAux_keys_sup rest e0.row e0.column e0.value e h

theorem mergeRunsAux_cellSum (l : List CoordinateEntry) :
    ∀ r0 c0 acc r c,
      runsCellSum (mergeRunsAux r0 c0 acc l) r c
        = (if r0 = r ∧ c0 = c then acc else 0) + cooCellSum l r c := by
  induction l with
  | nil =>
    intro r0 c0 acc r c
    simp only [mergeRunsAux, runsCellSum, cooCellSum, List.filter_nil,
      List.map_nil, List.sum_nil, List.filter_cons]
    by_cases h : r0 = r ∧ c0 = c
    · simp [h]
    · simp [h]
  | cons e rest ih =>
    intro r0 c0 acc r c
    rw [mergeRunsAux]
    split
    · rename_i hkey
      rw [ih]
      have hcoo : cooCellSum (e :: rest) r c
          = (if e.row = r ∧ e.column = c then e.value else 0)
            + cooCellSum rest r c := by
        simp only [cooCellSum, List.filter_cons]
        by_cases h : e.row = r ∧ e.column = c
        · simp [h]
        · simp [h]
      rw [hcoo]
      by_cases h : r0 = r ∧ c0 = c
      · have : e.row = r ∧ e.column = c := ⟨hkey.1.trans h.1, hkey.2.trans h.2⟩
        simp only [h, this, if_pos, and_self]
        ring
      · have : ¬(e.row = r ∧ e.column = c) := by
          intro hc
          exact h ⟨hkey.1.symm.trans hc.1, hkey.2.symm.trans hc.2⟩
        simp only [h, this, if_neg, not_false_iff]
        ring
    · rename_i hkey
      have hstep : runsCellSum ((r0, c0, acc) :: mergeRunsAux e.row e.column e.value rest) r c
          = (if r0 = r ∧ c0 = c then acc else 0)
            + runsCellSum (mergeRunsAux e.row e.column e.value rest) r c := by
        simp only [runsCellSum, List.filter_cons]
        by_cases h : r0 = r ∧ c0 = c
        · simp [h]
        · simp [h]
      rw [hstep, ih]
      have hcoo : cooCellSum (e :: rest) r c
          = (if e.row = r ∧ e.column = c then e.value else 0)
            + cooCellSum rest r c := by
        simp only [cooCellSum, List.filter_cons]
        by_cases h : e.row = r ∧ e.column = c
        · simp [h]
        · simp [h]
      rw [hcoo]

theorem mergeRuns_cellSum (l : List CoordinateEntry) (r c : Int) :
    runsCellSum (mergeRuns l) r c = cooCellSum l r c := by
  cases l with
  | nil => simp [mergeRuns, runsCellSum, cooCellSum]
  | cons e rest =>
    rw [mergeRuns, mergeRunsAux_cellSum]
    simp only [cooCellSum, List.filter_cons]
    by_cases h : e.row = r ∧ e.column = c
    · simp [h]
    · simp [h]

/-! ### Determinism of the merging scan -/

theorem runsCellSum_eq_zero {T : List (Int × Int × ℚ)} {r c : Int}
    (h : ∀ x ∈ T, ¬(x.1 = r ∧ x.2.1 = c)) : runsCellSum T r c = 0 := by
  unfold runsCellSum
  have : T.filter (fun t => decide (t.1 = r ∧ t.2.1 = c)) = [] := by
    rw [List.filter_eq_nil_iff]
    intro a ha
    simpa using h a ha
  rw [this]
  simp

theorem cooCellSum_congr_perm {l1 l2 : List CoordinateEntry}
    (h : l1.Perm l2) (r c : Int) : cooCellSum l1 r c = cooCellSum l2 r c :=
  ((h.filter _).map _).sum_eq

theorem runs_ext : ∀ (R1 R2 : List (Int × Int × ℚ)),
    R1.map keyOf = R2.map keyOf → (R1.map keyOf).Nodup →
    (∀ r c, runsCellSum R1 r c = runsCellSum R2 r c) → R1 = R2 := by
  intro R1
  induction R1 with
  | nil =>
    intro R2 hkeys _ _
    simp only [List.map_nil] at hkeys
    symm at hkeys
    rw [List.map_eq_nil_iff] at hkeys
    rw [hkeys]
  | cons t T ih =>
    intro R2 hkeys hnd hsums
    cases R2 with
    | nil => simp at hkeys
    | cons u U =>
      simp only [List.map_cons, List.cons.injEq] at hkeys
      obtain ⟨hk, hks⟩ := hkeys
      have hndT : keyOf t ∉ T.map keyOf := (List.nodup_cons.mp hnd).1
      have hndT' : ∀ x ∈ T, ¬(x.1 = t.1 ∧ x.2.1 = t.2.1) := by
        intro x hx hc
        exact hndT (by
          rw [List.mem_map]
          exact ⟨x, hx, by simp [keyOf, hc.1, hc.2]⟩)
      have hndU : keyOf u ∉ U.map keyOf := by
        rw [← hks, ← hk]
        exact hndT
      have hndU' : ∀ x ∈ U, ¬(x.1 = u.1 ∧ x.2.1 = u.2.1) := by
        intro x hx hc
        exact hndU (by
          rw [List.mem_map]
          exact ⟨x, hx, by simp [keyOf, hc.1, hc.2]⟩)
      have hk1 : t.1 = u.1 := by
        have := congrArg Prod.fst hk
        simpa [keyOf] using this
      have hk2 : t.2.1 = u.2.1 := by
        have := congrArg Prod.snd hk
        simpa [keyOf] using this
      have hval : t.2.2 = u.2.2 := by
        have h1 : runsCellSum (t :: T) t.1 t.2.1 = t.2.2 := by
          unfold runsCellSum
          rw [List.filter_cons]
          simp only [decide_eq_true_eq, and_self, if_pos]
          have : T.filter (fun x => decide (x.1 = t.1 ∧ x.2.1 = t.2.1)) = [] := by
            rw [List.filter_eq_nil_iff]
            intro a ha
            simpa using hndT' a ha
          rw [this]
          simp
        have h2 : runsCellSum (u :: U) t.1 t.2.1 = u.2.2 := by
          unfold runsCellSum
          rw [List.filter_cons]
          simp only [decide_eq_true_eq, hk1, hk2, and_self, if_pos]
          have : U.filter (fun x => decide (x.1 = u.1 ∧ x.2.1 = u.2.1)) = [] := by
            rw [List.filter_eq_nil_iff]
            intro a ha
            simpa using hndU' a ha
          rw [this]
          simp
        rw [← h1, hsums t.1 t.2.1, h2]
      have hTU : T = U := by
        refine ih U hks (List.nodup_cons.mp hnd).2 ?_
        intro r c
        by_cases hrc : t.1 = r ∧ t.2.1 = c
        · have hT0 : runsCellSum T r c = 0 := by
            refine runsCellSum_eq_zero ?_
            intro x hx hc
            exact hndT' x hx ⟨hc.1.trans hrc.1.symm, hc.2.trans hrc.2.symm⟩
          have hU0 : runsCellSum U r c = 0 := by
            refine runsCellSum_eq_zero ?_
            intro x hx hc
            exact hndU' x hx
              ⟨hc.1.trans (hrc.1.symm.trans hk1), hc.2.trans (hrc.2.symm.trans hk2)⟩
          rw [hT0, hU0]
        · have hT : runsCellSum (t :: T) r c = runsCellSum T r c := by
            unfold runsCellSum
            rw [List.filter_cons]
            simp only [decide_eq_true_eq, hrc, if_neg, not_false_iff]
          have hU : runsCellSum (u :: U) r c = runsCellSum U r c := by
            unfold runsCellSum
            rw [List.filter_cons]
            have : ¬(u.1 = r ∧ u.2.1 = c) := by
              rw [← hk1, ← hk2]
              exact hrc
            simp only [decide_eq_true_eq, this, if_neg, not_false_iff]
          rw [← hT, hsums r c, hU]
      have ht : t = u := by
        have e1 : t = (t.1, t.2.1, t.2.2) := rfl
        have e2 : u = (u.1, u.2.1, u.2.2) := rfl
        rw [e1, e2, hk1, hk2, hval]
      rw [ht, hTU]

theorem mergeRuns_keys_sorted {l : List CoordinateEntry}
    (h : l.Pairwise entryLE) :
    ((mergeRuns l).map keyOf).Pairwise pairLT := by
  rw [List.pairwise_map]
  exact (mergeRuns_sorted h).imp (by
    intro a b hab
    unfold runLT at hab
    unfold pairLT keyOf
    simpa using hab)

theorem mergeRuns_keys_nodup {l : List CoordinateEntry}
    (h : l.Pairwise entryLE) : ((mergeRuns l).map keyOf).Nodup :=
  (mergeRuns_keys_sorted h).imp (by
    intro a b hab
    unfold pairLT at hab
    intro hc
    rw [hc] at hab
    omega)

theorem mergeRuns_keys_mem_iff {l : List CoordinateEntry} {a b : Int} :
    (a, b) ∈ (mergeRuns l).map keyOf ↔
      ∃ e ∈ l, e.row = a ∧ e.column = b := by
  constructor
  · intro h
    obtain ⟨t, ht, hk⟩ := List.mem_map.mp h
    obtain ⟨e, he, h1, h2⟩ := mergeRuns_keys_sub ht
    have hk1 : t.1 = a := by
      have := congrArg Prod.fst hk
      simpa [keyOf] using this
    have hk2 : t.2.1 = b := by
      have := congrArg Prod.snd hk
      simpa [keyOf] using this
    exact ⟨e, he, by rw [← h1, hk1], by rw [← h2, hk2]⟩
  · intro ⟨e, he, h1, h2⟩
    obtain ⟨t, ht, k1, k2⟩ := mergeRuns_keys_sup he
    rw [List.mem_map]
    exact ⟨t, ht, by simp [keyOf, k1, k2, h1, h2]⟩

/-- Merging is insensitive to the order in which a sort leaves tied entries:
any two sorted arrangements of the same entries produce the same run list. -/
theorem mergeRuns_eq_of_perm_of_sorted {l1 l2 : List CoordinateEntry}
    (hp : l1.Perm l2) (h1 : l1.Pairwise entryLE) (h2 : l2.Pairwise entryLE) :
    mergeRuns l1 = mergeRuns l2 := by
  refine runs_ext (mergeRuns l1) (mergeRuns l2) ?_ (mergeRuns_keys_nodup h1) ?_
  · refine List.eq_of_perm_of_sorted ?_ (mergeRuns_keys_sorted h1)
      (mergeRuns_keys_sorted h2)
    refine (List.perm_ext_iff_of_nodup (mergeRuns_keys_nodup h1)
      (mergeRuns_keys_nodup h2)).mpr ?_
    intro x
    obtain ⟨a, b⟩ := x
    rw [mergeRuns_keys_mem_iff, mergeRuns_keys_mem_iff]
    constructor
    · intro ⟨e, he, h⟩
      exact ⟨e, hp.mem_iff.mp he, h⟩
    · intro ⟨e, he, h⟩
      exact ⟨e, hp.mem_iff.mpr he, h⟩
  · intro r c
    rw [mergeRuns_cellSum, mergeRuns_cellSum]
    exact cooCellSum_congr_perm hp r c

/-! ### The windowed scan agrees with merging the windowed entries -/

theorem mergeRunsAux_of_not_mem {L : List CoordinateEntry} {r c : Int}
    (acc : ℚ) (h : ∀ x ∈ L, ¬(x.row = r ∧ x.column = c)) :
    mergeRunsAux r c acc L = (r, c, acc) :: mergeRuns L := by
  cases L with
  | nil => rfl
  | cons e rest =>
    rw [mergeRunsAux, if_neg (h e (List.mem_cons_self e rest))]
    rfl

theorem filterMap_shiftFun_eq (s : Int) (n : Nat) :
    ∀ l : List CoordinateEntry,
      l.filterMap (shiftFun s n) = (l.filter (windowB s n)).map (shiftEntry s) := by
  intro l
  induction l with
  | nil => rfl
  | cons e rest ih =>
    rw [List.filterMap_cons, List.filter_cons]
    by_cases h : 0 ≤ e.row - s ∧ e.row - s < (n : Int)
    · have h1 : shiftFun s n e = some (shiftEntry s e) := by
        unfold shiftFun
        rw [if_pos h]
      have h2 : windowB s n e = true := by
        unfold windowB
        simpa using h
      rw [h1, h2, if_pos rfl, List.map_cons, ih]
    · have h1 : shiftFun s n e = none := by
        unfold shiftFun
        rw [if_neg h]
      have h2 : windowB s n e = false := by
        unfold windowB
        simpa using h
      rw [h1, h2, ih]
      simp

theorem filterMap_shiftFun_sorted {s : Int} {n : Nat}
    {l : List CoordinateEntry} (h : l.Pairwise entryLE) :
    (l.filterMap (shiftFun s n)).Pairwise entryLE := by
  rw [filterMap_shiftFun_eq]
  rw [List.pairwise_map]
  refine (h.filter (windowB s n)).imp ?_
  intro a b hab
  unfold entryLE at hab ⊢
  unfold shiftEntry
  simp only
  omega

theorem localScan_eq (s : Int) (n : Nat) :
    ∀ l : List CoordinateEntry, l.Pairwise entryLE →
      ((∀ r c acc, 0 ≤ r - s → r - s < (n : Int) →
          (∀ e ∈ l, keyLE r c e) →
          localScan s n (some (r, c, acc)) l
            = mergeRunsAux (r - s) c acc (l.filterMap (shiftFun s n))) ∧
        localScan s n none l = mergeRuns (l.filterMap (shiftFun s n))) := by
  intro l
  induction l with
  | nil =>
    intro _
    constructor
    · intro r c acc _ _ _
      rfl
    · rfl
  | cons e rest ih =>
    intro hsort
    obtain ⟨hhead, hrest⟩ := List.pairwise_cons.mp hsort
    obtain ⟨ihA, ihD⟩ := ih hrest
    have hctxE : ∀ e' ∈ rest, keyLE e.row e.column e' := by
      intro e' he'
      have := hhead e' he'
      unfold entryLE at this
      unfold keyLE
      omega
    constructor
    · intro r c acc h0 h1 hctx
      rw [localScan]
      by_cases hkey : e.row = r ∧ e.column = c
      · rw [if_pos hkey]
        have hwinE : 0 ≤ e.row - s ∧ e.row - s < (n : Int) := by
          rw [hkey.1]; exact ⟨h0, h1⟩
        have hfm : (e :: rest).filterMap (shiftFun s n)
            = shiftEntry s e :: rest.filterMap (shiftFun s n) := by
          rw [List.filterMap_cons]
          unfold shiftFun
          rw [if_pos hwinE]
        rw [hfm, mergeRunsAux]
        have hcond : (shiftEntry s e).row = r - s ∧ (shiftEntry s e).column = c := by
          unfold shiftEntry
          simp only
          exact ⟨by omega, hkey.2⟩
        rw [if_pos hcond]
        have : (shiftEntry s e).value = e.value := rfl
        rw [this]
        exact ihA r c (acc + e.value) h0 h1
          (fun e' he' => hctx e' (List.mem_cons_of_mem e he'))
      · rw [if_neg hkey]
        by_cases hw : 0 ≤ e.row - s ∧ e.row - s < (n : Int)
        · rw [if_pos hw]
          have hfm : (e :: rest).filterMap (shiftFun s n)
              = shiftEntry s e :: rest.filterMap (shiftFun s n) := by
            rw [List.filterMap_cons]
            unfold shiftFun
            rw [if_pos hw]
          rw [hfm, mergeRunsAux]
          have hcond : ¬((shiftEntry s e).row = r - s ∧ (shiftEntry s e).column = c) := by
            unfold shiftEntry
            simp only
            intro hc
            exact hkey ⟨by omega, hc.2⟩
          rw [if_neg hcond]
          rw [ihA e.row e.column e.value hw.1 hw.2 hctxE]
          rfl
        · rw [if_neg hw]
          have hfm : (e :: rest).filterMap (shiftFun s n)
              = rest.filterMap (shiftFun s n) := by
            rw [List.filterMap_cons]
            unfold shiftFun
            rw [if_neg hw]
          rw [hfm, ihD]
          symm
          refine mergeRunsAux_of_not_mem acc ?_
          intro x hx hc
          rw [filterMap_shiftFun_eq] at hx
          obtain ⟨e', he', hx'⟩ := List.mem_map.mp hx
          have he'r : e' ∈ rest := List.mem_of_mem_filter he'
          have hkE := hctx e (List.mem_cons_self e rest)
          have hEE' := hhead e' he'r
          have hxr : x.row = e'.row - s := by rw [← hx']; rfl
          have hxc : x.column = e'.column := by rw [← hx']; rfl
          unfold keyLE at hkE
          unfold entryLE at hEE'
          rw [hxr, hxc] at hc
          omega
    · rw [localScan]
      by_cases hw : 0 ≤ e.row - s ∧ e.row - s < (n : Int)
      · rw [if_pos hw]
        have hfm : (e :: rest).filterMap (shiftFun s n)
            = shiftEntry s e :: rest.filterMap (shiftFun s n) := by
          rw [List.filterMap_cons]
          unfold shiftFun
          rw [if_pos hw]
        rw [hfm]
        rw [ihA e.row e.column e.value hw.1 hw.2 hctxE]
        rfl
      · rw [if_neg hw]
        have hfm : (e :: rest).filterMap (shiftFun s n)
            = rest.filterMap (shiftFun s n) := by
          rw [List.filterMap_cons]
          unfold shiftFun
          rw [if_neg hw]
        rw [hfm, ihD]

theorem localMergeRuns_eq {s : Int} {n : Nat} {l : List CoordinateEntry}
    (h : l.Pairwise entryLE) :
    localMergeRuns s n l = mergeRuns (l.filterMap (shiftFun s n)) :=
  (localScan_eq s n l h).2

theorem windowedShift_eq_filterMap {s e : Int} (h : s ≤ e)
    (l : List CoordinateEntry) :
    windowedShift s e l = l.filterMap (shiftFun s (e - s).toNat) := by
  unfold windowedShift
  congr 1
  funext x
  unfold shiftFun shiftEntry
  refine if_congr ?_ rfl rfl
  have : (((e - s).toNat : Nat) : Int) = e - s := Int.toNat_of_nonneg (by omega)
  rw [this]
  omega

/-! ### Characterisation of the assembled CSR arrays -/

theorem countP_split {α : Type} (p q pq : α → Bool) :
    ∀ l : List α, (∀ a ∈ l, pq a = true ↔ (p a = true ∨ q a = true)) →
      (∀ a ∈ l, ¬(p a = true ∧ q a = true)) →
      l.countP pq = l.countP p + l.countP q := by
  intro l
  induction l with
  | nil => intro _ _; simp
  | cons x xs ih =>
    intro hiff hd
    rw [List.countP_cons, List.countP_cons, List.countP_cons,
      ih (fun a ha => hiff a (List.mem_cons_of_mem x ha))
        (fun a ha => hd a (List.mem_cons_of_mem x ha))]
    have h1 := hiff x (List.mem_cons_self x xs)
    have h2 := hd x (List.mem_cons_self x xs)
    by_cases hp : p x = true
    · have hq : ¬q x = true := fun hq => h2 ⟨hp, hq⟩
      have hpq : pq x = true := h1.mpr (Or.inl hp)
      rw [if_pos hp, if_pos hpq, if_neg hq]
      omega
    · by_cases hq : q x = true
      · have hpq : pq x = true := h1.mpr (Or.inr hq)
        rw [if_pos hq, if_pos hpq, if_neg hp]
        omega
      · have hpq : ¬pq x = true := fun h => (h1.mp h).elim hp hq
        rw [if_neg hpq, if_neg hp, if_neg hq]
        omega

theorem getD_set_eq {c : List Nat} {i j : Nat} {a : Nat} (hi : i < c.length) :
    (c.set i a).getD j 0 = if i = j then a else c.getD j 0 := by
  by_cases hij : i = j
  · subst hij
    rw [List.getD_eq_getElem?_getD, List.getElem?_set_self hi]
    simp
  · rw [List.getD_eq_getElem?_getD, List.getElem?_set_ne hij,
      ← List.getD_eq_getElem?_getD]
    simp [hij]

theorem bumpCount_some {counts counts2 : List Nat} {idx : Int}
    (h : bumpCount counts idx = some counts2) :
    0 ≤ idx ∧ idx < (counts.length : Int) ∧
      counts2 = counts.set idx.toNat (counts.getD idx.toNat 0 + 1) := by
  unfold bumpCount at h
  split at h
  · rename_i hcond
    exact ⟨hcond.1, hcond.2, (Option.some.injEq _ _ ▸ h).symm⟩
  · cases h

theorem buildCounts_length :
    ∀ (R : List (Int × Int × ℚ)) (c c' : List Nat),
      buildCounts c R = some c' → c'.length = c.length := by
  intro R
  induction R with
  | nil =>
    intro c c' h
    rw [buildCounts] at h
    cases h
    rfl
  | cons t rest ih =>
    intro c c' h
    rw [buildCounts] at h
    cases hb : bumpCount c (t.1 + 1) with
    | none => rw [hb] at h; cases h
    | some c2 =>
      rw [hb] at h
      obtain ⟨_, _, hc2⟩ := bumpCount_some hb
      rw [ih c2 c' h, hc2, List.length_set]

theorem buildCounts_bounds :
    ∀ (R : List (Int × Int × ℚ)) (c c' : List Nat),
      buildCounts c R = some c' →
      ∀ t ∈ R, 0 ≤ t.1 + 1 ∧ t.1 + 1 < (c.length : Int) := by
  intro R
  induction R with
  | nil => intro c c' _ t ht; cases ht
  | cons t0 rest ih =>
    intro c c' h t ht
    rw [buildCounts] at h
    cases hb : bumpCount c (t0.1 + 1) with
    | none => rw [hb] at h; cases h
    | some c2 =>
      rw [hb] at h
      obtain ⟨h1, h2, hc2⟩ := bumpCount_some hb
      rcases List.mem_cons.mp ht with heq | hmem
      · subst heq; exact ⟨h1, h2⟩
      · have := ih c2 c' h t hmem
        rwa [hc2, List.length_set] at this

theorem buildCounts_getD :
    ∀ (R : List (Int × Int × ℚ)) (c c' : List Nat),
      buildCounts c R = some c' →
      ∀ j, j < c.length →
        c'.getD j 0 = c.getD j 0
          + R.countP (fun t => decide (t.1 + 1 = (j : Int))) := by
  intro R
  induction R with
  | nil =>
    intro c c' h j _
    rw [buildCounts] at h
    cases h
    simp
  | cons t0 rest ih =>
    intro c c' h j hj
    rw [buildCounts] at h
    cases hb : bumpCount c (t0.1 + 1) with
    | none => rw [hb] at h; cases h
    | some c2 =>
      rw [hb] at h
      obtain ⟨h1, h2, hc2⟩ := bumpCount_some hb
      have hlen2 : c2.length = c.length := by rw [hc2, List.length_set]
      have hrec := ih c2 c' h j (by omega)
      rw [List.countP_cons]
      have hidx : (t0.1 + 1).toNat < c.length := by omega
      by_cases hje : (t0.1 + 1) = (j : Int)
      · have hjn : (t0.1 + 1).toNat = j := by omega
        rw [hrec, hc2, hjn, getD_set_eq (by omega)]
        simp [hje]
        omega
      · have hjn : (t0.1 + 1).toNat ≠ j := by omega
        rw [hrec, hc2, getD_set_eq (by omega), if_neg hjn]
        simp [hje]

theorem buildCounts_exists :
    ∀ (R : List (Int × Int × ℚ)) (c : List Nat),
      (∀ t ∈ R, 0 ≤ t.1 + 1 ∧ t.1 + 1 < (c.length : Int)) →
      ∃ c', buildCounts c R = some c' := by
  intro R
  induction R with
  | nil => intro c _; exact ⟨c, rfl⟩
  | cons t0 rest ih =>
    intro c hb
    have h0 := hb t0 (List.mem_cons_self t0 rest)
    have hbump : bumpCount c (t0.1 + 1)
        = some (c.set (t0.1 + 1).toNat (c.getD (t0.1 + 1).toNat 0 + 1)) := by
      unfold bumpCount
      rw [if_pos h0]
    obtain ⟨c', hc'⟩ := ih (c.set (t0.1 + 1).toNat (c.getD (t0.1 + 1).toNat 0 + 1))
      (by
        intro t ht
        have := hb t (List.mem_cons_of_mem t0 ht)
        rwa [List.length_set])
    refine ⟨c', ?_⟩
    rw [buildCounts, hbump]
    exact hc'

theorem accumulatePointers_length :
    ∀ (c : List Nat) (a : Nat), (accumulatePointers a c).length = c.length := by
  intro c
  induction c with
  | nil => intro a; rfl
  | cons x rest ih =>
    intro a
    rw [accumulatePointers, List.length_cons, List.length_cons, ih]

theorem accumulatePointers_getD :
    ∀ (c : List Nat) (a i : Nat), i < c.length →
      (accumulatePointers a c).getD i 0 = a + (c.take (i + 1)).sum := by
  intro c
  induction c with
  | nil => intro a i hi; cases hi
  | cons x rest ih =>
    intro a i hi
    rw [accumulatePointers]
    cases i with
    | zero => simp
    | succ i =>
      rw [List.take_succ_cons, List.sum_cons]
      have : ((a + x) :: accumulatePointers (a + x) rest).getD (i + 1) 0
          = (accumulatePointers (a + x) rest).getD i 0 := by
        rw [List.getD_eq_getElem?_getD, List.getD_eq_getElem?_getD,
          List.getElem?_cons_succ]
      rw [this, ih (a + x) i (by simpa using hi)]
      omega

theorem getD_replicate_zero (n j : Nat) :
    (List.replicate n (0 : Nat)).getD j 0 = 0 := by
  rw [List.getD_eq_getElem?_getD, List.getElem?_replicate]
  by_cases h : j < n <;> simp [h]

theorem getD_eq_get_of_lt {l : List Nat} {i : Nat} (h : i < l.length) :
    l.getD i 0 = l[i] := by
  rw [List.getD_eq_getElem?_getD, List.getElem?_eq_getElem h]
  rfl

theorem counts_take_sum {R : List (Int × Int × ℚ)} {nr : Nat}
    {counts : List Nat}
    (hbc : buildCounts (List.replicate (nr + 1) 0) R = some counts) :
    ∀ k, k ≤ nr + 1 →
      (counts.take k).sum = R.countP (fun t => decide (t.1 + 1 < (k : Int))) := by
  have hlen : counts.length = nr + 1 := by
    rw [buildCounts_length R _ _ hbc, List.length_replicate]
  have hbounds := buildCounts_bounds R _ _ hbc
  intro k
  induction k with
  | zero =>
    intro _
    rw [List.take_zero]
    symm
    rw [List.sum_nil, List.countP_eq_zero]
    intro t ht
    have := hbounds t ht
    simp only [decide_eq_true_eq]
    omega
  | succ k ih =>
    intro hk
    have hklt : k < counts.length := by omega
    rw [List.sum_take_succ _ _ hklt, ih (by omega)]
    have hck : counts[k] = R.countP (fun t => decide (t.1 + 1 = (k : Int))) := by
      rw [← getD_eq_get_of_lt hklt,
        buildCounts_getD R _ _ hbc k (by rw [List.length_replicate]; omega),
        getD_replicate_zero]
      omega
    rw [hck]
    symm
    refine countP_split _ _ _ R ?_ ?_
    · intro t _
      simp only [decide_eq_true_eq]
      push_cast
      omega
    · intro t _
      simp only [decide_eq_true_eq]
      omega

theorem buildFromRuns_master {nr nc : Nat} {R : List (Int × Int × ℚ)}
    {m : CompressedSparseRowMatrix} (h : buildFromRuns nr nc R = some m) :
    m.numberOfRows = nr ∧ m.numberOfColumns = nc ∧
    m.columnIndices = R.map (fun t => t.2.1) ∧
    m.values = R.map (fun t => t.2.2) ∧
    m.rowPointers.length = nr + 1 ∧
    (∀ t ∈ R, 0 ≤ t.1 + 1 ∧ t.1 + 1 < (nr : Int) + 1) ∧
    (∀ i, i ≤ nr →
      m.rowPointers.getD i 0 = R.countP (fun t => decide (t.1 < (i : Int)))) := by
  unfold buildFromRuns at h
  cases hbc : buildCounts (List.replicate (nr + 1) 0) R with
  | none => rw [hbc] at h; cases h
  | some counts =>
    rw [hbc] at h
    have hm := Option.some.inj h
    have hlen : counts.length = nr + 1 := by
      rw [buildCounts_length R _ _ hbc, List.length_replicate]
    subst hm
    refine ⟨rfl, rfl, rfl, rfl, ?_, ?_, ?_⟩
    · simp only
      rw [accumulatePointers_length, hlen]
    · intro t ht
      have := buildCounts_bounds R _ _ hbc t ht
      rw [List.length_replicate] at this
      push_cast at this
      omega
    · intro i hi
      simp only
      rw [accumulatePointers_getD counts 0 i (by omega),
        counts_take_sum hbc (i + 1) (by omega)]
      have : (0 : Nat) + R.countP (fun t => decide (t.1 + 1 < ((i + 1 : Nat) : Int)))
          = R.countP (fun t => decide (t.1 + 1 < ((i + 1 : Nat) : Int))) := by omega
      rw [this]
      refine List.countP_congr ?_
      intro t _
      simp only [decide_eq_true_eq]
      push_cast
      omega

theorem runs_rows_le {R : List (Int × Int × ℚ)} (hs : R.Pairwise runLT) :
    R.Pairwise (fun a b => a.1 ≤ b.1) :=
  hs.imp (by
    intro a b hab
    unfold runLT at hab
    omega)

theorem sorted_drop_take_filter :
    ∀ (R : List (Int × Int × ℚ)), R.Pairwise (fun a b => a.1 ≤ b.1) →
      ∀ r : Int,
        (R.drop (R.countP (fun t => decide (t.1 < r)))).take
            (R.countP (fun t => decide (t.1 = r)))
          = R.filter (fun t => decide (t.1 = r)) := by
  intro R
  induction R with
  | nil => intro _ r; simp
  | cons t T ih =>
    intro hs r
    obtain ⟨hhead, hT⟩ := List.pairwise_cons.mp hs
    by_cases h1 : t.1 < r
    · have h2 : ¬t.1 = r := by omega
      have hc1 : (t :: T).countP (fun t => decide (t.1 < r))
          = T.countP (fun t => decide (t.1 < r)) + 1 := by
        rw [List.countP_cons]
        simp [h1]
      have hc2 : (t :: T).countP (fun t => decide (t.1 = r))
          = T.countP (fun t => decide (t.1 = r)) := by
        rw [List.countP_cons]
        simp [h2]
      have hf : (t :: T).filter (fun t => decide (t.1 = r))
          = T.filter (fun t => decide (t.1 = r)) := by
        rw [List.filter_cons]
        simp [h2]
      rw [hc1, hc2, hf, List.drop_succ_cons]
      exact ih hT r
    · have hcountlt : T.countP (fun t => decide (t.1 < r)) = 0 := by
        rw [List.countP_eq_zero]
        intro u hu
        have := hhead u hu
        simp only [decide_eq_true_eq]
        omega
      have hc1 : (t :: T).countP (fun t => decide (t.1 < r)) = 0 := by
        rw [List.countP_cons, hcountlt]
        simp [h1]
      by_cases h2 : t.1 = r
      · have hc2 : (t :: T).countP (fun t => decide (t.1 = r))
            = T.countP (fun t => decide (t.1 = r)) + 1 := by
          rw [List.countP_cons]
          simp [h2]
        have hf : (t :: T).filter (fun t => decide (t.1 = r))
            = t :: T.filter (fun t => decide (t.1 = r)) := by
          rw [List.filter_cons]
          simp [h2]
        rw [hc1, hc2, hf, List.drop_zero, List.take_succ_cons]
        have := ih hT r
        rw [hcountlt, List.drop_zero] at this
        rw [this]
      · have hcounteq : T.countP (fun t => decide (t.1 = r)) = 0 := by
          rw [List.countP_eq_zero]
          intro u hu
          have := hhead u hu
          simp only [decide_eq_true_eq]
          omega
        have hc2 : (t :: T).countP (fun t => decide (t.1 = r)) = 0 := by
          rw [List.countP_cons, hcounteq]
          simp [h2]
        have hf : (t :: T).filter (fun t => decide (t.1 = r)) = [] := by
          rw [List.filter_cons]
          simp only [decide_eq_true_eq, h2, if_neg, not_false_iff]
          rw [List.filter_eq_nil_iff]
          intro u hu
          have := hhead u hu
          simp only [decide_eq_true_eq]
          omega
        rw [hc1, hc2, hf, List.drop_zero, List.take_zero]

theorem countP_lt_split {R : List (Int × Int × ℚ)} (r : Nat) :
    R.countP (fun t => decide (t.1 < ((r : Int) + 1)))
      = R.countP (fun t => decide (t.1 < (r : Int)))
        + R.countP (fun t => decide (t.1 = (r : Int))) := by
  refine countP_split _ _ _ R ?_ ?_
  · intro t _
    simp only [decide_eq_true_eq]
    omega
  · intro t _
    simp only [decide_eq_true_eq]
    omega

theorem rowSegment_eq {nr nc : Nat} {R : List (Int × Int × ℚ)}
    {m : CompressedSparseRowMatrix} (h : buildFromRuns nr nc R = some m)
    (hs : R.Pairwise runLT) (r : Nat) (hr : r < nr) :
    rowSegment m r
      = (R.filter (fun t => decide (t.1 = (r : Int)))).map
          (fun t => (t.2.1, t.2.2)) := by
  obtain ⟨_, _, hcols, hvals, _, _, hrp⟩ := buildFromRuns_master h
  have hzip : m.columnIndices.zip m.values
      = R.map (fun t => (t.2.1, t.2.2)) := by
    rw [hcols, hvals, List.zip_map']
  have hr1 : m.rowPointers.getD (r + 1) 0
      = R.countP (fun t => decide (t.1 < (r : Int)))
        + R.countP (fun t => decide (t.1 = (r : Int))) := by
    rw [hrp (r + 1) (by omega), ← countP_lt_split r]
    refine List.countP_congr ?_
    intro t _
    simp only [decide_eq_true_eq]
    push_cast
    omega
  unfold rowSegment
  rw [hzip, hrp r (by omega), hr1]
  have hsub : R.countP (fun t => decide (t.1 < (r : Int)))
        + R.countP (fun t => decide (t.1 = (r : Int)))
        - R.countP (fun t => decide (t.1 < (r : Int)))
      = R.countP (fun t => decide (t.1 = (r : Int))) := by omega
  rw [hsub, ← List.map_drop, ← List.map_take,
    sorted_drop_take_filter R (runs_rows_le hs) (r : Int)]

theorem rowPointers_chain {nr nc : Nat} {R : List (Int × Int × ℚ)}
    {m : CompressedSparseRowMatrix} (h : buildFromRuns nr nc R = some m) :
    List.Chain' (· ≤ ·) m.rowPointers := by
  obtain ⟨_, _, _, _, hlen, _, hrp⟩ := buildFromRuns_master h
  refine List.Pairwise.chain' ?_
  rw [List.pairwise_iff_getElem]
  intro i j hi hj hij
  rw [← getD_eq_get_of_lt hi, ← getD_eq_get_of_lt hj,
    hrp i (by omega), hrp j (by omega)]
  refine List.countP_mono_left ?_
  intro t _
  simp only [decide_eq_true_eq]
  intro ht
  have : (i : Int) ≤ (j : Int) := by exact_mod_cast Nat.le_of_lt hij
  omega

theorem segment_cols_strict {nr nc : Nat} {R : List (Int × Int × ℚ)}
    {m : CompressedSparseRowMatrix} (h : buildFromRuns nr nc R = some m)
    (hs : R.Pairwise runLT) (r : Nat) (hr : r < nr) :
    ((rowSegment m r).map (fun cv => cv.1)).Pairwise (· < ·) := by
  rw [rowSegment_eq h hs r hr, List.map_map]
  have hfp : (R.filter (fun t => decide (t.1 = (r : Int)))).Pairwise runLT :=
    hs.filter _
  rw [List.pairwise_iff_getElem] at hfp ⊢
  intro i j hi hj hij
  rw [List.length_map] at hi hj
  have hmemi := List.getElem_mem (l := R.filter (fun t => decide (t.1 = (r : Int)))) hi
  have hmemj := List.getElem_mem (l := R.filter (fun t => decide (t.1 = (r : Int)))) hj
  have hri := (List.mem_filter.mp hmemi).2
  have hrj := (List.mem_filter.mp hmemj).2
  simp only [decide_eq_true_eq] at hri hrj
  have hlt := hfp i j hi hj hij
  rw [List.getElem_map, List.getElem_map]
  unfold runLT at hlt
  simp only [Function.comp]
  omega

theorem denseOfCSR_eq_runsCellSum {nr nc : Nat} {R : List (Int × Int × ℚ)}
    {m : CompressedSparseRowMatrix} (h : buildFromRuns nr nc R = some m)
    (hs : R.Pairwise runLT) (r : Nat) (hr : r < nr) (c : Int) :
    denseOfCSR m r c = runsCellSum R (r : Int) c := by
  unfold denseOfCSR runsCellSum
  rw [rowSegment_eq h hs r hr, List.filter_map, List.map_map]
  have hff : List.filter
        ((fun cv => decide (cv.1 = c)) ∘ fun t => (t.2.1, t.2.2))
        (R.filter (fun t => decide (t.1 = (r : Int))))
      = R.filter (fun t => decide (t.1 = (r : Int) ∧ t.2.1 = c)) := by
    rw [List.filter_filter]
    refine List.filter_congr ?_
    intro t _
    simp only [Function.comp, decide_eq_true_eq, Bool.and_eq_true]
    by_cases h1 : t.2.1 = c <;> by_cases h2 : t.1 = (r : Int) <;>
      simp [h1, h2]
  rw [hff]
  rfl

/-! ### The multiply engine -/

theorem dotFrom_eq (cols : List Int) (vals x : List ℚ) :
    ∀ (count k : Nat) (acc : ℚ), k + count ≤ cols.length →
      k + count ≤ vals.length →
      dotFrom cols vals x acc k count
        = some (acc + segmentDot x (((cols.zip vals).drop k).take count)) := by
  intro count
  induction count with
  | zero =>
    intro k acc _ _
    rw [dotFrom]
    simp [segmentDot]
  | succ count ih =>
    intro k acc hc hv
    have hck : k < cols.length := by omega
    have hvk : k < vals.length := by omega
    have hzk : k < (cols.zip vals).length := by
      rw [List.length_zip]
      omega
    rw [dotFrom, List.getElem?_eq_getElem hck, List.getElem?_eq_getElem hvk]
    simp only
    rw [ih (k + 1) _ (by omega) (by omega)]
    rw [List.drop_eq_getElem_cons hzk, List.take_succ_cons, List.getElem_zip]
    have hseg : segmentDot x ((cols[k], vals[k])
          :: ((cols.zip vals).drop (k + 1)).take count)
        = (if 0 ≤ cols[k] ∧ cols[k] < (x.length : Int) then
            vals[k] * x.getD (cols[k]).toNat 0
          else 0)
          + segmentDot x (((cols.zip vals).drop (k + 1)).take count) := by
      unfold segmentDot
      rw [List.map_cons, List.sum_cons]
    rw [hseg]
    congr 1
    ring

theorem multiplyRows_eq (m : CompressedSparseRowMatrix) (x : List ℚ)
    (hlen : m.rowPointers.length = m.numberOfRows + 1)
    (hchain : List.Chain' (· ≤ ·) m.rowPointers)
    (hlast : m.rowPointers.getD m.numberOfRows 0 = m.columnIndices.length)
    (hcv : m.columnIndices.length = m.values.length) :
    ∀ (count r : Nat), r + count ≤ m.numberOfRows →
      ∃ y, multiplyRows m x r count = some y ∧ y.length = count ∧
        ∀ i, i < count → y.getD i 0 = segmentDot x (rowSegment m (r + i)) := by
  have hpair : List.Pairwise (· ≤ ·) m.rowPointers :=
    List.chain'_iff_pairwise.mp hchain
  have hmono : ∀ i j, i ≤ j → j < m.rowPointers.length →
      m.rowPointers.getD i 0 ≤ m.rowPointers.getD j 0 := by
    intro i j hij hj
    rcases Nat.eq_or_lt_of_le hij with heq | hlt
    · rw [heq]
    · rw [getD_eq_get_of_lt (by omega), getD_eq_get_of_lt hj]
      exact (List.pairwise_iff_getElem.mp hpair) i j (by omega) hj hlt
  intro count
  induction count with
  | zero =>
    intro r _
    exact ⟨[], rfl, rfl, fun i hi => by cases hi⟩
  | succ count ih =>
    intro r hr
    have hrlt : r < m.numberOfRows := by omega
    have hrp1 : r < m.rowPointers.length := by omega
    have hrp2 : r + 1 < m.rowPointers.length := by omega
    obtain ⟨yrest, hrest, hrestlen, hresti⟩ := ih (r + 1) (by omega)
    have hlo : m.rowPointers[r]? = some (m.rowPointers.getD r 0) := by
      rw [List.getElem?_eq_getElem hrp1, ← getD_eq_get_of_lt hrp1]
    have hhi : m.rowPointers[r + 1]? = some (m.rowPointers.getD (r + 1) 0) := by
      rw [List.getElem?_eq_getElem hrp2, ← getD_eq_get_of_lt hrp2]
    have hlohi : m.rowPointers.getD r 0 ≤ m.rowPointers.getD (r + 1) 0 :=
      hmono r (r + 1) (by omega) hrp2
    have hhinnz : m.rowPointers.getD (r + 1) 0 ≤ m.columnIndices.length := by
      rw [← hlast]
      exact hmono (r + 1) m.numberOfRows (by omega) (by omega)
    have hdot := dotFrom_eq m.columnIndices m.values x
      (m.rowPointers.getD (r + 1) 0 - m.rowPointers.getD r 0)
      (m.rowPointers.getD r 0) 0 (by omega) (by omega)
    rw [multiplyRows, hlo, hhi]
    simp only
    rw [hdot, hrest]
    simp only
    refine ⟨_, rfl, by simp [hrestlen], ?_⟩
    intro i hi'
    cases i with
    | zero =>
      rw [List.getD_cons_zero]
      unfold rowSegment
      rw [Nat.add_zero]
      exact zero_add _
    | succ i =>
      rw [List.getD_cons_succ, hresti i (by omega)]
      have : r + 1 + i = r + (i + 1) := by omega
      rw [this]

theorem multiply_spec (m : CompressedSparseRowMatrix) (x : List ℚ)
    (hlen : m.rowPointers.length = m.numberOfRows + 1)
    (hchain : List.Chain' (· ≤ ·) m.rowPointers)
    (hlast : m.rowPointers.getD m.numberOfRows 0 = m.columnIndices.length)
    (hcv : m.columnIndices.length = m.values.length) :
    ∃ y, multiply m x = some y ∧ y.length = m.numberOfRows ∧
      ∀ r, r < m.numberOfRows → y.getD r 0 = segmentDot x (rowSegment m r) := by
  obtain ⟨y, hy, hylen, hyi⟩ :=
    multiplyRows_eq m x hlen hchain hlast hcv m.numberOfRows 0 (by omega)
  exact ⟨y, hy, hylen, fun r hr => by simpa using hyi r hr⟩

/-! ### The conversion entry points -/

theorem getD_eq_getElem_of_lt {α : Type} (d : α) {l : List α} {i : Nat}
    (h : i < l.length) : l.getD i d = l[i] := by
  rw [List.getD_eq_getElem?_getD, List.getElem?_eq_getElem h]
  rfl

theorem getD_replicate {α : Type} (d a : α) (n j : Nat) :
    (List.replicate n a).getD j d = if j < n then a else d := by
  rw [List.getD_eq_getElem?_getD, List.getElem?_replicate]
  by_cases h : j < n <;> simp [h]

theorem accumulatePointers_replicate_zero :
    ∀ n : Nat, accumulatePointers 0 (List.replicate n 0) = List.replicate n 0 := by
  intro n
  induction n with
  | zero => rfl
  | succ n ih =>
    rw [List.replicate_succ, accumulatePointers]
    rw [Nat.add_zero, ih]

theorem chain_replicate_zero (n : Nat) :
    List.Chain' (· ≤ ·) (List.replicate n (0 : Nat)) := by
  refine List.Pairwise.chain' ?_
  rw [List.pairwise_iff_getElem]
  intro i j hi hj _
  rw [List.getElem_replicate, List.getElem_replicate]

theorem rowSegment_trivial (nr nc : Nat) (r : Nat) :
    rowSegment
      { numberOfRows := nr, numberOfColumns := nc,
        rowPointers := List.replicate (nr + 1) 0,
        columnIndices := [], values := [] } r = [] := by
  unfold rowSegment
  simp [getD_replicate]

theorem trivial_csr_invariants (nr nc : Nat) :
    CSRInvariants
      { numberOfRows := nr, numberOfColumns := nc,
        rowPointers := List.replicate (nr + 1) 0,
        columnIndices := [], values := [] } := by
  refine ⟨by simp, ?_, chain_replicate_zero (nr + 1), ?_, rfl, ?_⟩
  · rw [getD_replicate]
    simp
  · rw [getD_replicate]
    simp
  · intro r _
    rw [rowSegment_trivial]
    simp

theorem convertCOOtoCSR_empty (nr nc : Nat) :
    convertCOOtoCSR nr nc []
      = some { numberOfRows := nr, numberOfColumns := nc,
               rowPointers := List.replicate (nr + 1) 0,
               columnIndices := [], values := [] } := rfl

theorem convertCOOtoCSR_of_ne {nr nc : Nat} {entries : List CoordinateEntry}
    (h : entries ≠ []) :
    convertCOOtoCSR nr nc entries
      = buildFromRuns nr nc (mergeRuns (sortEntries entries)) := by
  unfold convertCOOtoCSR
  rw [if_neg]
  rw [List.isEmpty_iff]
  exact h

theorem convertCOOtoCSRLocal_of_ne {g gc : Nat} {l : List CoordinateEntry}
    {s e : Int} (hse : s ≤ e) (h : l ≠ []) :
    convertCOOtoCSRLocal g gc l s e
      = buildFromRuns (e - s).toNat gc
          (localMergeRuns s (e - s).toNat (sortEntries l)) := by
  unfold convertCOOtoCSRLocal
  rw [if_neg (by omega)]
  simp only
  rw [if_neg]
  rw [List.isEmpty_iff]
  exact h

theorem convertCOOtoCSRLocal_empty {g gc : Nat} {s e : Int} (hse : s ≤ e) :
    convertCOOtoCSRLocal g gc [] s e
      = some { numberOfRows := (e - s).toNat, numberOfColumns := gc,
               rowPointers := List.replicate ((e - s).toNat + 1) 0,
               columnIndices := [], values := [] } := by
  unfold convertCOOtoCSRLocal
  rw [if_neg (by omega)]
  rfl

theorem mergeRuns_rows_valid {nr : Nat} {l : List CoordinateEntry}
    (hv : ∀ e ∈ l, 0 ≤ e.row ∧ e.row < (nr : Int)) :
    ∀ t ∈ mergeRuns l, 0 ≤ t.1 ∧ t.1 < (nr : Int) := by
  intro t ht
  obtain ⟨e, he, h1, _⟩ := mergeRuns_keys_sub ht
  rw [h1]
  exact hv e he

theorem buildFromRuns_exists {nr nc : Nat} {R : List (Int × Int × ℚ)}
    (hb : ∀ t ∈ R, 0 ≤ t.1 ∧ t.1 < (nr : Int)) :
    ∃ m, buildFromRuns nr nc R = some m := by
  obtain ⟨counts, hc⟩ := buildCounts_exists R (List.replicate (nr + 1) 0)
    (by
      intro t ht
      have := hb t ht
      rw [List.length_replicate]
      push_cast
      omega)
  refine ⟨{ numberOfRows := nr, numberOfColumns := nc,
            rowPointers := accumulatePointers 0 counts,
            columnIndices := R.map (fun t => t.2.1),
            values := R.map (fun t => t.2.2) }, ?_⟩
  unfold buildFromRuns
  rw [hc]

theorem csr_invariants_of_build {nr nc : Nat} {R : List (Int × Int × ℚ)}
    {m : CompressedSparseRowMatrix} (h : buildFromRuns nr nc R = some m)
    (hs : R.Pairwise runLT) (hrows : ∀ t ∈ R, 0 ≤ t.1 ∧ t.1 < (nr : Int)) :
    CSRInvariants m := by
  obtain ⟨hnr, _, hcols, hvals, hlen, _, hrp⟩ := buildFromRuns_master h
  refine ⟨by rw [hlen, hnr], ?_, rowPointers_chain h, ?_, ?_, ?_⟩
  · rw [hrp 0 (by omega)]
    rw [List.countP_eq_zero]
    intro t ht
    have := hrows t ht
    simp only [decide_eq_true_eq]
    omega
  · rw [hnr, hrp nr (by omega), hcols, List.length_map]
    rw [List.countP_eq_length]
    intro t ht
    have := hrows t ht
    simp only [decide_eq_true_eq]
    omega
  · rw [hcols, hvals, List.length_map, List.length_map]
  · intro r hr
    rw [hnr] at hr
    refine ((segment_cols_strict h hs r hr).imp ?_)
    intro a b hab
    omega

theorem segmentsFromRows_of_build {nr nc : Nat} {R : List (Int × Int × ℚ)}
    {m : CompressedSparseRowMatrix} {entries : List CoordinateEntry}
    {rowOffset : Int} (h : buildFromRuns nr nc R = some m)
    (hs : R.Pairwise runLT)
    (hkeys : ∀ t ∈ R, ∃ e ∈ entries,
      e.row = rowOffset + t.1 ∧ e.column = t.2.1) :
    segmentsFromRows m entries rowOffset := by
  obtain ⟨hnr, _, _, _, _, _, _⟩ := buildFromRuns_master h
  intro r hr cv hcv
  rw [hnr] at hr
  rw [rowSegment_eq h hs r hr] at hcv
  obtain ⟨t, ht, hcveq⟩ := List.mem_map.mp hcv
  have htR : t ∈ R := List.mem_of_mem_filter ht
  have htr : t.1 = (r : Int) := by
    have := (List.mem_filter.mp ht).2
    simpa using this
  obtain ⟨e, he, h1, h2⟩ := hkeys t htR
  refine ⟨e, he, ?_, ?_⟩
  · rw [h1, htr]
  · rw [h2, ← hcveq]

theorem windowed_rows_valid {s : Int} {n : Nat} {l : List CoordinateEntry} :
    ∀ e' ∈ l.filterMap (shiftFun s n), 0 ≤ e'.row ∧ e'.row < (n : Int) := by
  intro e' he'
  obtain ⟨a, _, ha⟩ := List.mem_filterMap.mp he'
  unfold shiftFun at ha
  split at ha
  · rename_i hcond
    have : shiftEntry s a = e' := Option.some.inj ha
    rw [← this]
    unfold shiftEntry
    simpa using hcond
  · cases ha

theorem windowed_keys {s : Int} {n : Nat} {l : List CoordinateEntry} :
    ∀ e' ∈ l.filterMap (shiftFun s n),
      ∃ a ∈ l, a.row = s + e'.row ∧ a.column = e'.column := by
  intro e' he'
  obtain ⟨a, hal, ha⟩ := List.mem_filterMap.mp he'
  unfold shiftFun at ha
  split at ha
  · have : shiftEntry s a = e' := Option.some.inj ha
    rw [← this]
    unfold shiftEntry
    exact ⟨a, hal, by simp, by simp⟩
  · cases ha

/-- C1.  For every finite list of coordinate entries whose rows lie in
`[0, numRows)` and columns in `[0, numColumns)`, densifying the CSR matrix
returned by `convertCOOtoCSR (numRows, numColumns, entries)` yields exactly
the `numRows × numColumns` dense matrix whose cell `(r, c)` is the sum of
the values of all entries with row `r` and column `c`. -/
theorem spmv_c1_convert_densify (numRows numColumns : Nat)
    (entries : List CoordinateEntry)
    (hv : ∀ e ∈ entries, 0 ≤ e.row ∧ e.row < (numRows : Int) ∧
      0 ≤ e.column ∧ e.column < (numColumns : Int)) :
    ∃ m, convertCOOtoCSR numRows numColumns entries = some m ∧
      ∀ r : Nat, r < numRows → ∀ c : Int, 0 ≤ c → c < (numColumns : Int) →
        denseOfCSR m r c = cooCellSum entries (r : Int) c := by
  by_cases hne : entries = []
  · subst hne
    refine ⟨_, convertCOOtoCSR_empty numRows numColumns, ?_⟩
    intro r hr c _ _
    unfold denseOfCSR
    rw [rowSegment_trivial]
    simp [cooCellSum]
  · have hrows : ∀ e ∈ entries, 0 ≤ e.row ∧ e.row < (numRows : Int) := by
      intro e he
      exact ⟨(hv e he).1, (hv e he).2.1⟩
    have hruns := @mergeRuns_rows_valid numRows (sortEntries entries)
      (by
        intro e he
        exact hrows e ((sortEntries_perm entries).mem_iff.mp he))
    obtain ⟨m, hm⟩ := @buildFromRuns_exists numRows numColumns _ hruns
    refine ⟨m, by rw [convertCOOtoCSR_of_ne hne]; exact hm, ?_⟩
    intro r hr c _ _
    have hs := mergeRuns_sorted (sortEntries_sorted entries)
    rw [denseOfCSR_eq_runsCellSum hm hs r hr c, mergeRuns_cellSum,
      cooCellSum_congr_perm (sortEntries_perm entries)]

/-- C5.  For every input entry list of the data model (rows non-negative and
below the requested row count) the CSR matrix produced by `convertCOOtoCSR`
satisfies the CSR invariants — `rowPointers` has length `numberOfRows + 1`,
starts at 0, is monotone non-decreasing, ends at the post-merge nonzero
count shared by the column and value arrays, and each row segment has
pairwise-distinct columns drawn exclusively from that row — and the matrix
produced by `convertCOOtoCSRLocal` for any row window satisfies the same
invariants with rows taken relative to the window. -/
theorem spmv_c5_csr_invariants (numRows numColumns : Nat)
    (entries : List CoordinateEntry)
    (globalRows globalColumns : Nat) (localEntries : List CoordinateEntry)
    (rowStart rowEnd : Int)
    (hv : ∀ e ∈ entries, 0 ≤ e.row ∧ e.row < (numRows : Int))
    (hse : rowStart ≤ rowEnd) :
    (∃ m, convertCOOtoCSR numRows numColumns entries = some m ∧
      CSRInvariants m ∧ segmentsFromRows m entries 0) ∧
    (∃ m', convertCOOtoCSRLocal globalRows globalColumns localEntries
        rowStart rowEnd = some m' ∧
      CSRInvariants m' ∧ segmentsFromRows m' localEntries rowStart) := by
  constructor
  · by_cases hne : entries = []
    · subst hne
      refine ⟨_, convertCOOtoCSR_empty numRows numColumns, ?_, ?_⟩
      · exact trivial_csr_invariants numRows numColumns
      · intro r hr cv hcv
        rw [rowSegment_trivial] at hcv
        cases hcv
    · have hruns := @mergeRuns_rows_valid numRows (sortEntries entries)
        (by
          intro e he
          exact hv e ((sortEntries_perm entries).mem_iff.mp he))
      obtain ⟨m, hm⟩ := @buildFromRuns_exists numRows numColumns _ hruns
      have hs := mergeRuns_sorted (sortEntries_sorted entries)
      refine ⟨m, by rw [convertCOOtoCSR_of_ne hne]; exact hm,
        csr_invariants_of_build hm hs hruns, ?_⟩
      refine segmentsFromRows_of_build hm hs ?_
      intro t ht
      obtain ⟨e, he, h1, h2⟩ := mergeRuns_keys_sub ht
      refine ⟨e, (sortEntries_perm entries).mem_iff.mp he, by omega, h2.symm⟩
  · by_cases hne : localEntries = []
    · subst hne
      refine ⟨_, convertCOOtoCSRLocal_empty hse, ?_, ?_⟩
      · exact trivial_csr_invariants _ globalColumns
      · intro r hr cv hcv
        rw [rowSegment_trivial] at hcv
        cases hcv
    · have hW1sorted := filterMap_shiftFun_sorted
        (s := rowStart) (n := (rowEnd - rowStart).toNat)
        (sortEntries_sorted localEntries)
      have hruns := @mergeRuns_rows_valid (rowEnd - rowStart).toNat
        ((sortEntries localEntries).filterMap
          (shiftFun rowStart (rowEnd - rowStart).toNat))
        windowed_rows_valid
      obtain ⟨m', hm'⟩ := @buildFromRuns_exists (rowEnd - rowStart).toNat
        globalColumns _ hruns
      have hs := mergeRuns_sorted hW1sorted
      have hloc : convertCOOtoCSRLocal globalRows globalColumns localEntries
          rowStart rowEnd = some m' := by
        rw [convertCOOtoCSRLocal_of_ne hse hne,
          localMergeRuns_eq (sortEntries_sorted localEntries)]
        exact hm'
      refine ⟨m', hloc, csr_invariants_of_build hm' hs hruns, ?_⟩
      refine segmentsFromRows_of_build hm' hs ?_
      intro t ht
      obtain ⟨e', he', h1, h2⟩ := mergeRuns_keys_sub ht
      obtain ⟨a, hal, ha1, ha2⟩ := windowed_keys e' he'
      refine ⟨a, (sortEntries_perm localEntries).mem_iff.mp hal, by omega, by omega⟩

theorem buildFromRuns_nil (n gc : Nat) :
    buildFromRuns n gc []
      = some { numberOfRows := n, numberOfColumns := gc,
               rowPointers := List.replicate (n + 1) 0,
               columnIndices := [], values := [] } := by
  unfold buildFromRuns
  have hb : buildCounts (List.replicate (n + 1) 0)
      ([] : List (Int × Int × ℚ)) = some (List.replicate (n + 1) 0) := rfl
  rw [hb]
  simp only [List.map_nil]
  rw [accumulatePointers_replicate_zero]

/-- C7.  For every coordinate-entry list and every half-open row window
`[rowStart, rowEnd)`, `convertCOOtoCSRLocal` agrees with `convertCOOtoCSR`
applied to the window restriction of the entries: exactly the entries with
`rowStart ≤ row < rowEnd` are kept, their rows shifted by `-rowStart`, and
the row count is `rowEnd - rowStart`. -/
theorem spmv_c7_local_refines_global (globalRows globalColumns : Nat)
    (l : List CoordinateEntry) (rowStart rowEnd : Int)
    (hse : rowStart ≤ rowEnd) :
    convertCOOtoCSRLocal globalRows globalColumns l rowStart rowEnd
      = convertCOOtoCSR (rowEnd - rowStart).toNat globalColumns
          (windowedShift rowStart rowEnd l) := by
  rw [windowedShift_eq_filterMap hse]
  by_cases hne : l = []
  · subst hne
    rw [convertCOOtoCSRLocal_empty hse]
    rfl
  · rw [convertCOOtoCSRLocal_of_ne hse hne,
      localMergeRuns_eq (sortEntries_sorted l)]
    have hperm : ((sortEntries l).filterMap
          (shiftFun rowStart (rowEnd - rowStart).toNat)).Perm
        (l.filterMap (shiftFun rowStart (rowEnd - rowStart).toNat)) :=
      List.Perm.filterMap _ (sortEntries_perm l)
    by_cases hW : l.filterMap (shiftFun rowStart (rowEnd - rowStart).toNat) = []
    · rw [hW] at hperm
      rw [hperm.eq_nil, hW]
      rw [show mergeRuns [] = [] from rfl, buildFromRuns_nil]
      rfl
    · rw [convertCOOtoCSR_of_ne hW]
      congr 1
      refine mergeRuns_eq_of_perm_of_sorted ?_ ?_ ?_
      · exact hperm.trans (sortEntries_perm _).symm
      · exact filterMap_shiftFun_sorted (sortEntries_sorted l)
      · exact sortEntries_sorted _

/-- C9.  In every CSR matrix returned by `convertCOOtoCSR` or
`convertCOOtoCSRLocal`, the column indices within each row's segment
`[rowPointers[r], rowPointers[r + 1])` are strictly increasing — stronger
than pairwise distinctness — because entries are sorted by `(row, column)`
before merging. -/
theorem spmv_c9_segment_columns_strict (numRows numColumns : Nat)
    (entries : List CoordinateEntry) (m : CompressedSparseRowMatrix)
    (globalRows globalColumns : Nat) (l : List CoordinateEntry)
    (rowStart rowEnd : Int) (m' : CompressedSparseRowMatrix) :
    (convertCOOtoCSR numRows numColumns entries = some m →
      ∀ r, r < m.numberOfRows →
        ((rowSegment m r).map (fun cv => cv.1)).Pairwise (· < ·)) ∧
    (convertCOOtoCSRLocal globalRows globalColumns l rowStart rowEnd
        = some m' →
      ∀ r, r < m'.numberOfRows →
        ((rowSegment m' r).map (fun cv => cv.1)).Pairwise (· < ·)) := by
  constructor
  · intro hm r hr
    by_cases hne : entries = []
    · subst hne
      rw [convertCOOtoCSR_empty] at hm
      have := Option.some.inj hm
      rw [← this] at hr ⊢
      rw [rowSegment_trivial]
      simp
    · rw [convertCOOtoCSR_of_ne hne] at hm
      have hs := mergeRuns_sorted (sortEntries_sorted entries)
      obtain ⟨hnr, _, _, _, _, _, _⟩ := buildFromRuns_master hm
      rw [hnr] at hr
      exact segment_cols_strict hm hs r hr
  · intro hm' r hr
    by_cases hws : rowEnd < rowStart
    · exfalso
      unfold convertCOOtoCSRLocal at hm'
      rw [if_pos hws] at hm'
      cases hm'
    · have hse' : rowStart ≤ rowEnd := by omega
      by_cases hne : l = []
      · subst hne
        rw [convertCOOtoCSRLocal_empty hse'] at hm'
        have := Option.some.inj hm'
        rw [← this] at hr ⊢
        rw [rowSegment_trivial]
        simp
      · rw [convertCOOtoCSRLocal_of_ne hse' hne,
          localMergeRuns_eq (sortEntries_sorted l)] at hm'
        have hs := mergeRuns_sorted
          (filterMap_shiftFun_sorted (s := rowStart)
            (n := (rowEnd - rowStart).toNat) (sortEntries_sorted l))
        obtain ⟨hnr, _, _, _, _, _, _⟩ := buildFromRuns_master hm'
        rw [hnr] at hr
        exact segment_cols_strict hm' hs r hr

/-- C10.  Both converters sort their by-reference coordinate-entry argument
in place: for every non-empty input the caller's list afterwards is a
permutation of the original in `(row, column)` ascending order, so the
conversion is not side-effect-free on its input (witnessed by a concrete
two-element list that changes), although its multiset of entries is
unchanged. -/
theorem spmv_c10_argument_sorted_in_place :
    (∀ l : List CoordinateEntry, l ≠ [] →
        (entriesAfterConvert l).Perm l ∧
        (entriesAfterConvert l).Pairwise entryLE) ∧
    entriesAfterConvert [⟨1, 0, 1⟩, ⟨0, 0, 2⟩] = [⟨0, 0, 2⟩, ⟨1, 0, 1⟩] ∧
    entriesAfterConvert [⟨1, 0, 1⟩, ⟨0, 0, 2⟩] ≠ [⟨1, 0, 1⟩, ⟨0, 0, 2⟩] := by
  refine ⟨?_, by decide, by decide⟩
  intro l hl
  unfold entriesAfterConvert
  rw [if_neg (by rw [List.isEmpty_iff]; exact hl)]
  exact ⟨sortEntries_perm l, sortEntries_sorted l⟩

/-- C3.  For every `totalRows ≥ 0` and `workerCount ≥ 1`,
`calculateRowDistribution` returns `workerCount + 1` boundaries where, with
`base = totalRows / workerCount` and `remainder = totalRows % workerCount`,
boundary `k` equals `k·base + min k remainder` for every `k < workerCount`,
the final boundary equals `totalRows` exactly, the first `remainder` workers
receive one extra row each, and this holds even when
`totalRows < workerCount`; in particular the boundaries for `(10, 3)` are
`[0, 4, 7, 10]` and for `(2, 5)` they end at 2 with three empty ranges. -/
theorem spmv_c3_row_distribution (totalRows workerCount : Nat)
    (hP : 1 ≤ workerCount) :
    (calculateRowDistribution totalRows workerCount).length
        = workerCount + 1 ∧
    (∀ k, k < workerCount →
      (calculateRowDistribution totalRows workerCount).getD k 0
        = ((k * (totalRows / workerCount)
            + min k (totalRows % workerCount) : Nat) : Int)) ∧
    (calculateRowDistribution totalRows workerCount).getD workerCount 0
        = (totalRows : Int) ∧
    (∀ k, k < workerCount →
      (calculateRowDistribution totalRows workerCount).getD (k + 1) 0
          - (calculateRowDistribution totalRows workerCount).getD k 0
        = ((totalRows / workerCount : Nat) : Int)
          + (if k < totalRows % workerCount then 1 else 0)) ∧
    calculateRowDistribution 10 3 = [0, 4, 7, 10] ∧
    calculateRowDistribution 2 5 = [0, 1, 2, 2, 2, 2] := by
  have hmaplen : ((List.range workerCount).map
      (fun k => ((k * (totalRows / workerCount)
        + min k (totalRows % workerCount) : Nat) : Int))).length
      = workerCount := by
    rw [List.length_map, List.length_range]
  have hlt : ∀ k, k < workerCount →
      (calculateRowDistribution totalRows workerCount).getD k 0
        = ((k * (totalRows / workerCount)
            + min k (totalRows % workerCount) : Nat) : Int) := by
    intro k hk
    unfold calculateRowDistribution
    rw [List.getD_append _ _ 0 k (by rw [hmaplen]; exact hk),
      getD_eq_getElem_of_lt 0 (by rw [hmaplen]; exact hk),
      List.getElem_map, List.getElem_range]
  have hlast : (calculateRowDistribution totalRows workerCount).getD
      workerCount 0 = (totalRows : Int) := by
    unfold calculateRowDistribution
    rw [List.getD_append_right _ _ 0 workerCount (by rw [hmaplen]),
      hmaplen]
    simp
  refine ⟨?_, hlt, hlast, ?_, by decide, by decide⟩
  · unfold calculateRowDistribution
    rw [List.length_append, hmaplen]
    rfl
  · intro k hk
    have hdm := Nat.div_add_mod totalRows workerCount
    have hrem : totalRows % workerCount < workerCount :=
      Nat.mod_lt _ (by omega)
    by_cases hk1 : k + 1 < workerCount
    · rw [hlt k hk, hlt (k + 1) hk1]
      by_cases hkr : k < totalRows % workerCount
      · have hmin1 : min (k + 1) (totalRows % workerCount)
            = min k (totalRows % workerCount) + 1 := by omega
        rw [hmin1, if_pos hkr]
        push_cast
        ring
      · have hmin1 : min (k + 1) (totalRows % workerCount)
            = min k (totalRows % workerCount) := by omega
        rw [hmin1, if_neg hkr]
        push_cast
        ring
    · have hkP : k + 1 = workerCount := by omega
      rw [hkP, hlast, hlt k hk]
      have hminr : min k (totalRows % workerCount)
          = totalRows % workerCount := by omega
      have hno : ¬k < totalRows % workerCount := by omega
      rw [hminr, if_neg hno]
      have hb : workerCount * (totalRows / workerCount)
          = k * (totalRows / workerCount) + totalRows / workerCount := by
        rw [← hkP]
        ring
      rw [hb] at hdm
      have hdmi : (k : Int) * ((totalRows / workerCount : Nat) : Int)
          + ((totalRows / workerCount : Nat) : Int)
          + ((totalRows % workerCount : Nat) : Int) = (totalRows : Int) := by
        exact_mod_cast hdm
      push_cast at hdmi ⊢
      linarith

/-- C4.  For every local CSR matrix satisfying the CSR invariants and every
dense vector, `multiply` is total and never fails: it returns a vector of
length `numberOfRows` whose entry `r` is the sum of
`value · denseVector[col]` over the entries of row `r`'s range whose column
index lies in `[0, denseVector.length)`, entries with out-of-range columns
contributing nothing instead of causing a failure. -/
theorem spmv_c4_multiply_total (localMatrix : CompressedSparseRowMatrix)
    (denseVector : List ℚ) (hinv : CSRInvariants localMatrix) :
    ∃ y, multiply localMatrix denseVector = some y ∧
      y.length = localMatrix.numberOfRows ∧
      ∀ r, r < localMatrix.numberOfRows →
        y.getD r 0 = segmentDot denseVector (rowSegment localMatrix r) := by
  obtain ⟨h1, _, h3, h4, h5, _⟩ := hinv
  exact multiply_spec localMatrix denseVector h1 h3 h4 h5

/-! ### The root-side distribution -/

theorem getD_mono_of_pairwise {l : List Int} (h : l.Pairwise (· ≤ ·))
    {i j : Nat} (hij : i ≤ j) (hj : j < l.length) :
    l.getD i 0 ≤ l.getD j 0 := by
  rcases Nat.eq_or_lt_of_le hij with heq | hlt
  · rw [heq]
  · rw [getD_eq_getElem_of_lt 0 (by omega), getD_eq_getElem_of_lt 0 hj]
    exact (List.pairwise_iff_getElem.mp h) i j (by omega) hj hlt

theorem takeWhile_le_length_eq {x : Int} :
    ∀ (l : List Int) (j : Nat), j ≤ l.length →
      (∀ i, i < j → l.getD i 0 ≤ x) →
      (j < l.length → x < l.getD j 0) →
      (l.takeWhile (fun b => decide (b ≤ x))).length = j := by
  intro l
  induction l with
  | nil =>
    intro j hj _ _
    have hj0 : j = 0 := by simpa using hj
    subst hj0
    rfl
  | cons a t ih =>
    intro j hj h1 h2
    cases j with
    | zero =>
      have hxa : x < a := by
        have := h2 (by simp)
        rwa [List.getD_cons_zero] at this
      rw [List.takeWhile_cons]
      rw [if_neg (by simpa using by omega : ¬(decide (a ≤ x) = true))]
      rfl
    | succ j =>
      have hax : a ≤ x := by
        have := h1 0 (by omega)
        rwa [List.getD_cons_zero] at this
      rw [List.takeWhile_cons, if_pos (by simpa using hax), List.length_cons]
      rw [ih j (by simpa using hj)
        (fun i hi => by
          have := h1 (i + 1) (by omega)
          rwa [List.getD_cons_succ] at this)
        (fun hjl => by
          have := h2 (by simpa using hjl)
          rwa [List.getD_cons_succ] at this)]

theorem findOwner_eq {P : Nat} {dist : List Int} {x : Int} {k : Nat}
    (hlen : dist.length = P + 1) (hmono : dist.Pairwise (· ≤ ·))
    (hk : k < P) (hlo : dist.getD k 0 ≤ x) (hhi : x < dist.getD (k + 1) 0) :
    findOwnerProcess P x dist = (k : Int) := by
  have hub : upperBoundIndex dist x = k + 1 := by
    unfold upperBoundIndex
    refine takeWhile_le_length_eq dist (k + 1) (by omega) ?_ ?_
    · intro i hi
      exact le_trans (getD_mono_of_pairwise hmono (by omega) (by omega)) hlo
    · intro hjl
      exact lt_of_lt_of_le hhi (getD_mono_of_pairwise hmono (by omega) hjl)
  unfold findOwnerProcess
  rw [hub]
  push_cast
  omega

theorem findOwner_toNat_lt {P : Nat} {dist : List Int} {x : Int}
    (hP : 1 ≤ P) : (findOwnerProcess P x dist).toNat < P := by
  unfold findOwnerProcess
  omega

theorem getD_set_eq_general {α : Type} (d : α) {c : List α} {i : Nat}
    (a : α) (j : Nat) (hi : i < c.length) :
    (c.set i a).getD j d = if i = j then a else c.getD j d := by
  by_cases hij : i = j
  · subst hij
    rw [List.getD_eq_getElem?_getD, List.getElem?_set_self hi, if_pos rfl]
    rfl
  · rw [List.getD_eq_getElem?_getD, List.getElem?_set_ne hij,
      ← List.getD_eq_getElem?_getD, if_neg hij]

theorem foldl_buckets (P : Nat) (dist : List Int) :
    ∀ (entries : List CoordinateEntry) (B : List (List CoordinateEntry)),
      (∀ e ∈ entries, (findOwnerProcess P e.row dist).toNat < B.length) →
      ((entries.foldl (fun buckets e =>
          let owner := (findOwnerProcess P e.row dist).toNat
          buckets.set owner (buckets.getD owner [] ++ [e])) B).length
        = B.length ∧
      ∀ k, k < B.length →
        (entries.foldl (fun buckets e =>
            let owner := (findOwnerProcess P e.row dist).toNat
            buckets.set owner (buckets.getD owner [] ++ [e])) B).getD k []
          = B.getD k [] ++ entries.filter
              (fun e => decide ((findOwnerProcess P e.row dist).toNat = k))) := by
  intro entries
  induction entries with
  | nil =>
    intro B _
    exact ⟨rfl, fun k _ => by simp⟩
  | cons e rest ih =>
    intro B hB
    have ho : (findOwnerProcess P e.row dist).toNat < B.length :=
      hB e (List.mem_cons_self e rest)
    have hB' : ∀ e' ∈ rest,
        (findOwnerProcess P e'.row dist).toNat
          < (B.set (findOwnerProcess P e.row dist).toNat
              (B.getD (findOwnerProcess P e.row dist).toNat [] ++ [e])).length := by
      intro e' he'
      rw [List.length_set]
      exact hB e' (List.mem_cons_of_mem e he')
    obtain ⟨ihlen, ihget⟩ := ih _ hB'
    rw [List.foldl_cons]
    constructor
    · rw [ihlen, List.length_set]
    · intro k hk
      rw [ihget k (by rw [List.length_set]; exact hk),
        getD_set_eq_general [] _ k ho, List.filter_cons]
      by_cases hok : (findOwnerProcess P e.row dist).toNat = k
      · rw [if_pos hok, if_pos (by simpa using hok), hok,
          List.append_assoc]
        rfl
      · rw [if_neg hok, if_neg (by simpa using hok)]

theorem distributeToBuckets_eq {P : Nat} (dist : List Int)
    (entries : List CoordinateEntry) (hP : 1 ≤ P) :
    distributeToBuckets P dist entries
      = (List.range P).map (fun k => entries.filter
          (fun e => decide ((findOwnerProcess P e.row dist).toNat = k))) := by
  have hB : ∀ e ∈ entries,
      (findOwnerProcess P e.row dist).toNat
        < (List.replicate P ([] : List CoordinateEntry)).length := by
    intro e _
    rw [List.length_replicate]
    exact findOwner_toNat_lt hP
  obtain ⟨hlen, hget⟩ := foldl_buckets P dist entries _ hB
  rw [List.length_replicate] at hlen hget
  apply List.ext_getElem
  · rw [List.length_map, List.length_range]
    unfold distributeToBuckets
    rw [hlen]
  · intro k hk1 hk2
    rw [List.length_map, List.length_range] at hk2
    unfold distributeToBuckets
    rw [← getD_eq_getElem_of_lt ([] : List CoordinateEntry),
      ← getD_eq_getElem_of_lt ([] : List CoordinateEntry)
        (by rw [List.length_map, List.length_range]; exact hk2)]
    rw [hget k hk2]
    rw [getD_replicate]
    rw [if_pos hk2, List.nil_append]
    rw [getD_eq_getElem_of_lt _ (by rw [List.length_map, List.length_range]; exact hk2),
      List.getElem_map, List.getElem_range]

theorem flatten_map_nil {α : Type} :
    ∀ ks : List Nat, (ks.map (fun _ => ([] : List α))).flatten = [] := by
  intro ks
  induction ks with
  | nil => rfl
  | cons k t ih =>
    rw [List.map_cons, List.flatten_cons, ih]
    rfl

theorem flatten_map_if_perm {α : Type} (e : α) (g : Nat → List α) :
    ∀ ks : List Nat, ks.Nodup → ∀ o, o ∈ ks →
      ((ks.map (fun k => if o = k then e :: g k else g k)).flatten).Perm
        (e :: (ks.map g).flatten) := by
  intro ks
  induction ks with
  | nil =>
    intro _ o ho
    cases ho
  | cons k t ih =>
    intro hnd o ho
    obtain ⟨hkt, hndt⟩ := List.nodup_cons.mp hnd
    rw [List.map_cons, List.map_cons, List.flatten_cons, List.flatten_cons]
    by_cases hok : o = k
    · subst hok
      rw [if_pos rfl]
      have hmap : t.map (fun k => if o = k then e :: g k else g k)
          = t.map g := by
        refine List.map_congr_left ?_
        intro k' hk'
        rw [if_neg]
        intro hc
        rw [hc] at hkt
        exact hkt hk'
      rw [hmap]
      rfl
    · rw [if_neg hok]
      have hot : o ∈ t := by
        rcases List.mem_cons.mp ho with h | h
        · exact absurd h hok
        · exact h
      exact (List.Perm.append_left (g k) (ih hndt o hot)).trans
        List.perm_middle

theorem buckets_flatten_perm {P : Nat} (dist : List Int) (hP : 1 ≤ P) :
    ∀ entries : List CoordinateEntry,
      (((List.range P).map (fun k => entries.filter
          (fun e => decide ((findOwnerProcess P e.row dist).toNat = k)))).flatten).Perm
        entries := by
  intro entries
  induction entries with
  | nil =>
    rw [show (List.range P).map (fun k => List.filter
        (fun e => decide ((findOwnerProcess P e.row dist).toNat = k)) [])
        = (List.range P).map (fun _ => ([] : List CoordinateEntry)) from
      List.map_congr_left (fun k _ => rfl)]
    rw [flatten_map_nil]
  | cons e rest ih =>
    have hmap : (List.range P).map (fun k => (e :: rest).filter
          (fun x => decide ((findOwnerProcess P x.row dist).toNat = k)))
        = (List.range P).map (fun k =>
            if (findOwnerProcess P e.row dist).toNat = k then
              e :: rest.filter
                (fun x => decide ((findOwnerProcess P x.row dist).toNat = k))
            else
              rest.filter
                (fun x => decide ((findOwnerProcess P x.row dist).toNat = k))) := by
      refine List.map_congr_left ?_
      intro k _
      rw [List.filter_cons]
      by_cases h : (findOwnerProcess P e.row dist).toNat = k
      · rw [if_pos (by simpa using h), if_pos h]
      · rw [if_neg (by simpa using h), if_neg h]
    rw [hmap]
    refine (flatten_map_if_perm e _ (List.range P) (List.nodup_range P)
      _ ?_).trans (ih.cons e)
    rw [List.mem_range]
    exact findOwner_toNat_lt hP

/-- C2.  For every coordinate-entry list and every row distribution
(monotone boundaries with `boundaries[0] = 0` and
`boundaries[P] = totalRows` for `P ≥ 1` workers), the root's classification
assigns each entry whose row lies in `[boundaries[k], boundaries[k+1])` to
worker `k` — computed by binary search over the boundaries and clamped to
`[0, P-1]` — and the concatenation of the per-worker buckets is a
permutation of the original entry list: every entry appears in exactly one
bucket, exactly once. -/
theorem spmv_c2_distribution_lossless (P : Nat) (totalRows : Int)
    (rowDistribution : List Int) (entries : List CoordinateEntry)
    (hP : 1 ≤ P) (hlen : rowDistribution.length = P + 1)
    (hmono : rowDistribution.Pairwise (· ≤ ·))
    (h0 : rowDistribution.getD 0 0 = 0)
    (hlast : rowDistribution.getD P 0 = totalRows) :
    (∀ e ∈ entries, ∀ k, k < P →
      rowDistribution.getD k 0 ≤ e.row →
      e.row < rowDistribution.getD (k + 1) 0 →
      findOwnerProcess P e.row rowDistribution = (k : Int)) ∧
    ((distributeToBuckets P rowDistribution entries).flatten).Perm entries := by
  constructor
  · intro e _ k hk hlo hhi
    exact findOwner_eq hlen hmono hk hlo hhi
  · rw [distributeToBuckets_eq rowDistribution entries hP]
    exact buckets_flatten_perm rowDistribution hP entries

/-! ### The two-phase wire protocol -/

theorem zipEntries_maps (l : List CoordinateEntry) :
    zipEntries (l.map (fun e => e.row)) (l.map (fun e => e.column))
      (l.map (fun e => e.value)) = l := by
  induction l with
  | nil => rfl
  | cons e rest ih =>
    unfold zipEntries at ih ⊢
    simp only [List.map_cons, List.zip_cons_cons]
    rw [ih]

theorem receive_count_zero (rest : List MpiMessage) :
    receiveCoordinateEntries (MpiMessage.intScalar 0 0 :: rest)
      = some ([], rest) := rfl

theorem receive_count_pos (n : Int) (hn : 0 < n) (rows columns : List Int)
    (values : List ℚ) (rest2 : List MpiMessage)
    (hr : (rows.length : Int) = n) (hc : (columns.length : Int) = n)
    (hv : (values.length : Int) = n) :
    receiveCoordinateEntries
        (MpiMessage.intScalar 0 n :: MpiMessage.intArray 1 rows ::
          MpiMessage.intArray 2 columns :: MpiMessage.realArray 3 values ::
          rest2)
      = some (zipEntries rows columns values, rest2) := by
  show (if 0 < n then
      if (rows.length : Int) = n ∧ (columns.length : Int) = n ∧
          (values.length : Int) = n then
        some (zipEntries rows columns values, rest2)
      else none
    else some ([], MpiMessage.intArray 1 rows ::
      MpiMessage.intArray 2 columns :: MpiMessage.realArray 3 values ::
      rest2))
    = some (zipEntries rows columns values, rest2)
  rw [if_pos hn, if_pos ⟨hr, hc, hv⟩]

/-- C6.  In every execution of the distribution phase, the sender emits
exactly one entry-count message first (tag 0); the count message and the
three data-array messages (rows tag 1, columns tag 2, values tag 3) use
fixed, distinct tags in the same order the receiver posts its receives; a
count of zero is never followed by any data message — the data phase is
skipped entirely on both sides — and the receiver consumes exactly the sent
messages, reconstructing the entries and leaving the rest of the stream
untouched. -/
theorem spmv_c6_count_then_data_protocol (entries : List CoordinateEntry)
    (rest : List MpiMessage) :
    (sendCoordinateEntries entries).head?
        = some (MpiMessage.intScalar 0 (entries.length : Int)) ∧
    (entries = [] →
      sendCoordinateEntries entries = [MpiMessage.intScalar 0 0]) ∧
    (entries ≠ [] →
      sendCoordinateEntries entries
        = [MpiMessage.intScalar 0 (entries.length : Int),
           MpiMessage.intArray 1 (entries.map (fun e => e.row)),
           MpiMessage.intArray 2 (entries.map (fun e => e.column)),
           MpiMessage.realArray 3 (entries.map (fun e => e.value))]) ∧
    receiveCoordinateEntries (sendCoordinateEntries entries ++ rest)
      = some (entries, rest) := by
  refine ⟨rfl, ?_, ?_, ?_⟩
  · intro h
    subst h
    rfl
  · intro h
    unfold sendCoordinateEntries
    rw [if_pos (List.length_pos.mpr h)]
  · cases entries with
    | nil => exact receive_count_zero rest
    | cons e t =>
      have hsend : sendCoordinateEntries (e :: t)
          = [MpiMessage.intScalar 0 ((e :: t).length : Int),
             MpiMessage.intArray 1 ((e :: t).map (fun e => e.row)),
             MpiMessage.intArray 2 ((e :: t).map (fun e => e.column)),
             MpiMessage.realArray 3 ((e :: t).map (fun e => e.value))] := by
        unfold sendCoordinateEntries
        rw [if_pos (by simp)]
      rw [hsend]
      rw [show ([MpiMessage.intScalar 0 ((e :: t).length : Int),
             MpiMessage.intArray 1 ((e :: t).map (fun e => e.row)),
             MpiMessage.intArray 2 ((e :: t).map (fun e => e.column)),
             MpiMessage.realArray 3 ((e :: t).map (fun e => e.value))] ++ rest)
          = MpiMessage.intScalar 0 ((e :: t).length : Int) ::
              MpiMessage.intArray 1 ((e :: t).map (fun e => e.row)) ::
              MpiMessage.intArray 2 ((e :: t).map (fun e => e.column)) ::
              MpiMessage.realArray 3 ((e :: t).map (fun e => e.value)) ::
              rest from rfl]
      rw [receive_count_pos _ (by rw [List.length_cons]; push_cast; omega) _ _ _ _
        (by rw [List.length_map]) (by rw [List.length_map])
        (by rw [List.length_map])]
      rw [zipEntries_maps]

/-! ### The Matrix Market writer -/

theorem collectNonZeroEntries_eq (tol : ℚ) :
    ∀ (v : List ℚ) (i0 : Nat),
      collectNonZeroEntries tol i0 v
        = ((List.range v.length).filter
            (fun j => decide (tol < |v.getD j 0|))).map
            (fun j => (i0 + j, v.getD j 0)) := by
  intro v
  induction v with
  | nil => intro i0; rfl
  | cons x rest ih =>
    intro i0
    have hlhs : collectNonZeroEntries tol i0 (x :: rest)
        = if tol < |x| then
            (i0, x) :: collectNonZeroEntries tol (i0 + 1) rest
          else collectNonZeroEntries tol (i0 + 1) rest := rfl
    rw [hlhs, ih (i0 + 1)]
    have hrange : List.range (x :: rest).length
        = 0 :: (List.range rest.length).map Nat.succ := by
      rw [List.length_cons, List.range_succ_eq_map]
    rw [hrange, List.filter_cons]
    have htail : (((List.range rest.length).map Nat.succ).filter
          (fun j => decide (tol < |(x :: rest).getD j 0|))).map
          (fun j => (i0 + j, (x :: rest).getD j 0))
        = ((List.range rest.length).filter
            (fun j => decide (tol < |rest.getD j 0|))).map
            (fun j => (i0 + 1 + j, rest.getD j 0)) := by
      rw [List.filter_map, List.map_map]
      have hfc : (List.range rest.length).filter
            ((fun j => decide (tol < |(x :: rest).getD j 0|)) ∘ Nat.succ)
          = (List.range rest.length).filter
            (fun j => decide (tol < |rest.getD j 0|)) := by
        refine List.filter_congr ?_
        intro j _
        simp [Function.comp, List.getD_cons_succ]
      rw [hfc]
      refine List.map_congr_left ?_
      intro j _
      simp only [Function.comp, List.getD_cons_succ]
      have : i0 + Nat.succ j = i0 + 1 + j := by omega
      rw [this]
    have hc0 : decide (tol < |(x :: rest).getD 0 0|) = decide (tol < |x|) := by
      rw [List.getD_cons_zero]
    rw [hc0]
    by_cases hx : tol < |x|
    · rw [if_pos hx, if_pos (by simpa using hx), List.map_cons, htail]
      simp
    · rw [if_neg hx, if_neg (by simpa using hx), htail]

/-- C8.  For every result vector `v` and tolerance, the output written by
`writeVector` consists of the fixed header
`%%MatrixMarket matrix coordinate real general`, a dimension line reporting
`v.length` rows, one column, and the number of entries with
`|v[i]| > tolerance`, followed by exactly one data line per index `i` with
`|v[i]| > tolerance` — with 1-based row index `i + 1`, column fixed to 1,
and value `v[i]` — and no data line for any index with
`|v[i]| ≤ tolerance`. -/
theorem spmv_c8_write_vector (v : List ℚ) (tol : ℚ) :
    (writeVector v tol).header
        = "%%MatrixMarket matrix coordinate real general" ∧
    (writeVector v tol).reportedRows = v.length ∧
    (writeVector v tol).reportedColumns = 1 ∧
    (writeVector v tol).reportedNonZeros
        = ((List.range v.length).filter
            (fun i => decide (tol < |v.getD i 0|))).length ∧
    (writeVector v tol).dataLines
        = ((List.range v.length).filter
            (fun i => decide (tol < |v.getD i 0|))).map
            (fun i => (i + 1, 1, v.getD i 0)) := by
  refine ⟨rfl, rfl, rfl, ?_, ?_⟩
  · show (collectNonZeroEntries tol 0 v).length = _
    rw [collectNonZeroEntries_eq tol v 0, List.length_map]
  · show (collectNonZeroEntries tol 0 v).map (fun t => (t.1 + 1, 1, t.2)) = _
    rw [collectNonZeroEntries_eq tol v 0, List.map_map]
    refine List.map_congr_left ?_
    intro j _
    simp only [Function.comp]
    rw [Nat.zero_add]

/-! ### Concrete witnesses -/

/-- Witness for C1 at a concrete input with a duplicate entry. -/
theorem spmv_c1_witness :
    (∀ e ∈ ([⟨0, 1, 2⟩, ⟨1, 0, 3⟩, ⟨0, 1, 5⟩] : List CoordinateEntry),
      0 ≤ e.row ∧ e.row < ((2 : Nat) : Int) ∧
      0 ≤ e.column ∧ e.column < ((2 : Nat) : Int)) ∧
    (∃ m, convertCOOtoCSR 2 2 [⟨0, 1, 2⟩, ⟨1, 0, 3⟩, ⟨0, 1, 5⟩] = some m ∧
      ∀ r : Nat, r < 2 → ∀ c : Int, 0 ≤ c → c < ((2 : Nat) : Int) →
        denseOfCSR m r c
          = cooCellSum [⟨0, 1, 2⟩, ⟨1, 0, 3⟩, ⟨0, 1, 5⟩] (r : Int) c) :=
  ⟨by decide, spmv_c1_convert_densify 2 2 _ (by decide)⟩

/-- Witness for C2 at a concrete two-worker distribution. -/
theorem spmv_c2_witness :
    ((1 ≤ 2) ∧ ([0, 1, 2] : List Int).length = 2 + 1 ∧
      ([0, 1, 2] : List Int).Pairwise (· ≤ ·) ∧
      ([0, 1, 2] : List Int).getD 0 0 = 0 ∧
      ([0, 1, 2] : List Int).getD 2 0 = (2 : Int)) ∧
    ((∀ e ∈ ([⟨0, 0, 1⟩, ⟨1, 0, 2⟩] : List CoordinateEntry), ∀ k, k < 2 →
        ([0, 1, 2] : List Int).getD k 0 ≤ e.row →
        e.row < ([0, 1, 2] : List Int).getD (k + 1) 0 →
        findOwnerProcess 2 e.row [0, 1, 2] = (k : Int)) ∧
      ((distributeToBuckets 2 [0, 1, 2] [⟨0, 0, 1⟩, ⟨1, 0, 2⟩]).flatten).Perm
        [⟨0, 0, 1⟩, ⟨1, 0, 2⟩]) :=
  ⟨⟨by decide, by decide, by decide, by decide, by decide⟩,
    spmv_c2_distribution_lossless 2 2 [0, 1, 2] [⟨0, 0, 1⟩, ⟨1, 0, 2⟩]
      (by decide) (by decide) (by decide) (by decide) (by decide)⟩

/-- Witness for C3 at the spec's example `(10, 3)`. -/
theorem spmv_c3_witness :
    (1 ≤ 3) ∧
    ((calculateRowDistribution 10 3).length = 3 + 1 ∧
      (∀ k, k < 3 → (calculateRowDistribution 10 3).getD k 0
        = ((k * (10 / 3) + min k (10 % 3) : Nat) : Int)) ∧
      (calculateRowDistribution 10 3).getD 3 0 = ((10 : Nat) : Int) ∧
      (∀ k, k < 3 → (calculateRowDistribution 10 3).getD (k + 1) 0
          - (calculateRowDistribution 10 3).getD k 0
        = ((10 / 3 : Nat) : Int) + (if k < 10 % 3 then 1 else 0)) ∧
      calculateRowDistribution 10 3 = [0, 4, 7, 10] ∧
      calculateRowDistribution 2 5 = [0, 1, 2, 2, 2, 2]) :=
  ⟨by decide, spmv_c3_row_distribution 10 3 (by decide)⟩

/-- Witness for C4 at a concrete matrix containing an out-of-range column
index (99), which is skipped rather than causing a failure. -/
theorem spmv_c4_witness :
    CSRInvariants
      { numberOfRows := 2, numberOfColumns := 2,
        rowPointers := [0, 1, 3], columnIndices := [0, 99, 1],
        values := [2, 5, 3] } ∧
    (∃ y, multiply
        { numberOfRows := 2, numberOfColumns := 2,
          rowPointers := [0, 1, 3], columnIndices := [0, 99, 1],
          values := [2, 5, 3] } [10, 20] = some y ∧
      y.length = 2 ∧
      ∀ r, r < 2 →
        y.getD r 0 = segmentDot [10, 20]
          (rowSegment
            { numberOfRows := 2, numberOfColumns := 2,
              rowPointers := [0, 1, 3], columnIndices := [0, 99, 1],
              values := [2, 5, 3] } r)) :=
  have hinv : CSRInvariants
      { numberOfRows := 2, numberOfColumns := 2,
        rowPointers := [0, 1, 3], columnIndices := [0, 99, 1],
        values := [2, 5, 3] } := by
    unfold CSRInvariants
    exact ⟨by decide, by decide, List.Pairwise.chain' (by decide),
      by decide, by decide, by decide⟩
  ⟨hinv, spmv_c4_multiply_total _ [10, 20] hinv⟩

/-- Witness for C5 at concrete global and windowed inputs. -/
theorem spmv_c5_witness :
    ((∀ e ∈ ([⟨0, 1, 2⟩, ⟨1, 0, 3⟩] : List CoordinateEntry),
        0 ≤ e.row ∧ e.row < ((2 : Nat) : Int)) ∧
      (3 : Int) ≤ 5) ∧
    ((∃ m, convertCOOtoCSR 2 2 [⟨0, 1, 2⟩, ⟨1, 0, 3⟩] = some m ∧
        CSRInvariants m ∧
        segmentsFromRows m [⟨0, 1, 2⟩, ⟨1, 0, 3⟩] 0) ∧
      (∃ m', convertCOOtoCSRLocal 10 3 [⟨3, 1, 4⟩, ⟨9, 0, 1⟩] 3 5 = some m' ∧
        CSRInvariants m' ∧
        segmentsFromRows m' [⟨3, 1, 4⟩, ⟨9, 0, 1⟩] 3)) :=
  ⟨⟨by decide, by decide⟩,
    spmv_c5_csr_invariants 2 2 [⟨0, 1, 2⟩, ⟨1, 0, 3⟩] 10 3
      [⟨3, 1, 4⟩, ⟨9, 0, 1⟩] 3 5 (by decide) (by decide)⟩

/-- Witness for C6: the round trip at a concrete entry list, with an
unrelated trailing message left unconsumed. -/
theorem spmv_c6_witness :
    ([⟨0, 1, 2⟩] : List CoordinateEntry) ≠ [] ∧
    receiveCoordinateEntries
        (sendCoordinateEntries [⟨0, 1, 2⟩] ++ [MpiMessage.intScalar 0 7])
      = some ([⟨0, 1, 2⟩], [MpiMessage.intScalar 0 7]) :=
  ⟨by decide,
    (spmv_c6_count_then_data_protocol [⟨0, 1, 2⟩]
      [MpiMessage.intScalar 0 7]).2.2.2⟩

/-- Witness for C7 at a concrete window, with both an out-of-window entry
and a duplicate in-window entry. -/
theorem spmv_c7_witness :
    ((3 : Int) ≤ 5) ∧
    convertCOOtoCSRLocal 10 3 [⟨4, 2, 5⟩, ⟨3, 1, 2⟩, ⟨9, 2, 7⟩, ⟨4, 2, 1⟩] 3 5
      = convertCOOtoCSR ((5 - 3 : Int)).toNat 3
          (windowedShift 3 5 [⟨4, 2, 5⟩, ⟨3, 1, 2⟩, ⟨9, 2, 7⟩, ⟨4, 2, 1⟩]) :=
  ⟨by decide,
    spmv_c7_local_refines_global 10 3
      [⟨4, 2, 5⟩, ⟨3, 1, 2⟩, ⟨9, 2, 7⟩, ⟨4, 2, 1⟩] 3 5 (by decide)⟩

/-- Witness for C9 at concrete conversions (global and windowed). -/
theorem spmv_c9_witness :
    (convertCOOtoCSR 2 2 [⟨1, 0, 3⟩, ⟨0, 1, 2⟩]
        = some { numberOfRows := 2, numberOfColumns := 2,
                 rowPointers := [0, 1, 2], columnIndices := [1, 0],
                 values := [2, 3] } ∧
      ∀ r, r < (2 : Nat) →
        ((rowSegment
            { numberOfRows := 2, numberOfColumns := 2,
              rowPointers := [0, 1, 2], columnIndices := [1, 0],
              values := [2, 3] } r).map (fun cv => cv.1)).Pairwise (· < ·)) ∧
    (convertCOOtoCSRLocal 10 3 [⟨4, 2, 5⟩, ⟨4, 0, 1⟩] 3 5
        = some { numberOfRows := 2, numberOfColumns := 3,
                 rowPointers := [0, 0, 2], columnIndices := [0, 2],
                 values := [1, 5] } ∧
      ∀ r, r < (2 : Nat) →
        ((rowSegment
            { numberOfRows := 2, numberOfColumns := 3,
              rowPointers := [0, 0, 2], columnIndices := [0, 2],
              values := [1, 5] } r).map (fun cv => cv.1)).Pairwise (· < ·)) :=
  ⟨⟨by decide,
    (spmv_c9_segment_columns_strict 2 2 [⟨1, 0, 3⟩, ⟨0, 1, 2⟩]
      { numberOfRows := 2, numberOfColumns := 2,
        rowPointers := [0, 1, 2], columnIndices := [1, 0],
        values := [2, 3] } 10 3
      [⟨4, 2, 5⟩, ⟨4, 0, 1⟩] 3 5
      { numberOfRows := 2, numberOfColumns := 3,
        rowPointers := [0, 0, 2], columnIndices := [0, 2],
        values := [1, 5] }).1 (by decide)⟩,
   ⟨by decide,
    (spmv_c9_segment_columns_strict 2 2 [⟨1, 0, 3⟩, ⟨0, 1, 2⟩]
      { numberOfRows := 2, numberOfColumns := 2,
        rowPointers := [0, 1, 2], columnIndices := [1, 0],
        values := [2, 3] } 10 3
      [⟨4, 2, 5⟩, ⟨4, 0, 1⟩] 3 5
      { numberOfRows := 2, numberOfColumns := 3,
        rowPointers := [0, 0, 2], columnIndices := [0, 2],
        values := [1, 5] }).2 (by decide)⟩⟩

/-- Witness for C10 at a concrete unsorted list. -/
theorem spmv_c10_witness :
    ([⟨1, 0, 1⟩, ⟨0, 0, 2⟩] : List CoordinateEntry) ≠ [] ∧
    ((entriesAfterConvert [⟨1, 0, 1⟩, ⟨0, 0, 2⟩]).Perm
        [⟨1, 0, 1⟩, ⟨0, 0, 2⟩] ∧
      (entriesAfterConvert [⟨1, 0, 1⟩, ⟨0, 0, 2⟩]).Pairwise entryLE) :=
  ⟨by decide,
    spmv_c10_argument_sorted_in_place.1 [⟨1, 0, 1⟩, ⟨0, 0, 2⟩] (by decide)⟩
